import Mathlib

/-!
Verification of the TAC documentation generator (`generate_docs.py`).

Python strings are modelled as `List Char`; the regex-driven extraction
functions of the script are translated into executable Lean functions that
follow the Python code line by line.  Source line numbers in doc comments
refer to `src/generate_docs.py`.

The file is organised as: all definitions first, then all theorems.
-/

namespace TacDocs

/-! ## General string helpers (Python semantics on `List Char`) -/

/-- Conversion from a Lean string literal to the `List Char` model of a
Python string. -/
def toL (s : String) : List Char := s.toList

/-- Python whitespace characters, as matched by `str.strip()` and `\s`
(space, tab, newline, carriage return, vertical tab, form feed). -/
def pyWs (c : Char) : Bool :=
  c = ' ' || c = '\t' || c = '\n' || c = '\r' || c = '\x0b' || c = '\x0c'

/-- Space or tab, as matched by the character class `[ \t]`. -/
def isSpTab (c : Char) : Bool := c = ' ' || c = '\t'

/-- Python `str.strip()`: remove leading and trailing whitespace. -/
def pyStrip (l : List Char) : List Char :=
  ((l.dropWhile pyWs).reverse.dropWhile pyWs).reverse

/-- Python `s.startswith(p)`. -/
def startsWithL (p l : List Char) : Bool := p.isPrefixOf l

/-- Python `p in s` (substring containment). -/
def containsSub (p l : List Char) : Bool :=
  match l with
  | [] => p.isPrefixOf []
  | _ :: r => p.isPrefixOf l || containsSub p r

/-- Python `c in s` for a single character `c`. -/
def chIn (c : Char) (l : List Char) : Bool := l.any (fun d => d == c)

/-- Python `s.split('\n')`: split at every newline, keeping empty parts. -/
def splitNl : List Char → List (List Char)
  | [] => [[]]
  | c :: r =>
    let rest := splitNl r
    if c = '\n' then [] :: rest
    else
      match rest with
      | [] => [[c]]
      | h :: t => (c :: h) :: t

/-- Python `' '.join(parts)`. -/
def joinSpace : List (List Char) → List Char
  | [] => []
  | [a] => a
  | a :: rest => a ++ ' ' :: joinSpace rest

/-- Python `'\n'.join(parts)`. -/
def joinNl : List (List Char) → List Char
  | [] => []
  | [a] => a
  | a :: rest => a ++ '\n' :: joinNl rest

/-- Number of newline characters in a string (used for
`content[:k].count('\n')`). -/
def countNl (l : List Char) : Nat := l.count '\n'

/-- One step of Python `str.replace(pat, rep)` with explicit fuel:
non-overlapping, left to right. -/
def replaceAllF (pat rep : List Char) : Nat → List Char → List Char
  | _, [] => []
  | 0, l => l
  | Nat.succ f, c :: r =>
    if pat ≠ [] && pat.isPrefixOf (c :: r) then
      rep ++ replaceAllF pat rep f (List.drop pat.length (c :: r))
    else
      c :: replaceAllF pat rep f r

/-- Python `s.replace(pat, rep)` for a non-empty pattern. -/
def replaceAll (pat rep l : List Char) : List Char :=
  replaceAllF pat rep l.length l

/-- First occurrence of a literal pattern: returns `(before, after)` with
`l = before ++ pat ++ after`, or `none` when the pattern does not occur. -/
def findSplit (pat : List Char) : List Char → Option (List Char × List Char)
  | [] => if pat.isEmpty then some ([], []) else none
  | c :: r =>
    if pat.isPrefixOf (c :: r) then some ([], List.drop pat.length (c :: r))
    else
      match findSplit pat r with
      | some (b, a) => some (c :: b, a)
      | none => none

/-! ## C1: module description extracted from the block comment

`parse_file`, lines 55-70: iterate over the stripped lines of the block
comment body with an `in_description` flag; the first non-empty line that
does not start with `'@'` is treated as a title and skipped; afterwards
non-empty lines are collected until a line starting with `'@'` breaks the
loop. -/

/-- The `for line in block.split('\n')` loop of lines 58-69, with the
`in_description` flag as first argument; returns `desc_lines`. -/
def descLoop : Bool → List (List Char) → List (List Char)
  | _, [] => []
  | inDesc, l :: rest =>
    let line := pyStrip l
    if !inDesc && !line.isEmpty && !startsWithL (toL "@") line then
      descLoop true rest
    else if inDesc then
      if startsWithL (toL "@") line then []
      else if !line.isEmpty then line :: descLoop inDesc rest
      else descLoop inDesc rest
    else descLoop inDesc rest

/-- Lines 57-70: `module['description'] = ' '.join(desc_lines).strip()`
computed from the block comment body. -/
def descFromBlock (block : List Char) : List Char :=
  pyStrip (joinSpace (descLoop false (splitNl block)))

/-- Restatement of the same extraction in the phrase structure of the
(amended) claim: strip every line; drop leading lines that are empty or
start with a tag; skip the next line (the title); collect the following
lines up to the first tag line, keeping only non-empty ones; join with
single spaces. -/
def descFromBlockAmended (block : List Char) : List Char :=
  pyStrip (joinSpace
    (match ((splitNl block).map pyStrip).dropWhile
        (fun l => l.isEmpty || startsWithL (toL "@") l) with
      | [] => []
      | _ :: rest =>
        (rest.takeWhile (fun l => !startsWithL (toL "@") l)).filter
          (fun l => !l.isEmpty)))

/-! ## C2: block comment location and metadata tags

`parse_file`, lines 36-76. -/

/-- Line 36: `re.search(r'--\[\[(.*?)\]\]', content, re.DOTALL)`.  The
lazy group captures the text between the first `--[[` and the first `]]`
after it; if no `]]` follows the first `--[[` no later start can succeed
either, so the whole search fails. -/
def findBlock (content : List Char) : Option (List Char) :=
  match findSplit (toL "--[[") content with
  | none => none
  | some (_, rest) =>
    match findSplit (toL "]]") rest with
    | none => none
    | some (body, _) => some body

/-- Backtracking of `\s+([^\n]+)` after a matched tag keyword, given the
suffix `r` that follows the keyword and the length of the maximal leading
whitespace run of `r`: the greedy `\s+` run is shortened from the right
until the next character exists and is not a newline; the group then
captures the maximal newline-free run from there. -/
def wsDescend (r : List Char) : Nat → Option (List Char)
  | 0 => none
  | Nat.succ k =>
    match (List.drop (Nat.succ k) r).head? with
    | some c =>
      if c = '\n' then wsDescend r k
      else some ((List.drop (Nat.succ k) r).takeWhile (fun d => d != '\n'))
    | none => wsDescend r k

/-- One attempt of `re.search(tag + r'\s+([^\n]+)', s)` at a fixed start
position: the literal tag must match, then `wsDescend` resolves
`\s+([^\n]+)`. -/
def tagTryAt (tag l : List Char) : Option (List Char) :=
  if tag.isPrefixOf l then
    wsDescend (List.drop tag.length l)
      (((List.drop tag.length l).takeWhile pyWs).length)
  else none

/-- Lines 41, 46, 51: `re.search(r'@tag\s+([^\n]+)', block)` — leftmost
position at which the whole pattern matches. -/
def tagCapture (tag : List Char) : List Char → Option (List Char)
  | [] => none
  | c :: r =>
    match tagTryAt tag (c :: r) with
    | some v => some v
    | none => tagCapture tag r

/-- Case-insensitive literal prefix match (for `re.IGNORECASE`); the
pattern is given in lower case. -/
def ciPrefix : List Char → List Char → Bool
  | [], _ => true
  | _ :: _, [] => false
  | p :: ps, c :: cs => (c.toLower == p) && ciPrefix ps cs

/-- One attempt of `re.search(r'version\s*=\s*["\']([^"\']+)["\']',
content, re.IGNORECASE)` at a fixed start position. -/
def versionAssignAt (l : List Char) : Option (List Char) :=
  if ciPrefix (toL "version") l then
    match (List.drop 7 l).dropWhile pyWs with
    | '=' :: r3 =>
      match r3.dropWhile pyWs with
      | q :: r5 =>
        if q = '"' || q = '\x27' then
          let cap := r5.takeWhile (fun c => !(c = '"' || c = '\x27'))
          if cap.isEmpty then none
          else
            match List.drop cap.length r5 with
            | _ :: _ => some cap
            | [] => none
        else none
      | [] => none
    | _ => none
  else none

/-- Line 74: the in-code fallback pattern for the version (leftmost
match); the captured group is not stripped (line 76). -/
def versionAssign : List Char → Option (List Char)
  | [] => none
  | c :: r =>
    match versionAssignAt (c :: r) with
    | some v => some v
    | none => versionAssign r

/-- Lines 46-48: `module['author']` from the `@author` tag of the first
block comment, stripped. -/
def moduleAuthor (content : List Char) : Option (List Char) :=
  match findBlock content with
  | none => none
  | some b => (tagCapture (toL "@author") b).map pyStrip

/-- Lines 51-53: `module['license']` from the `@license` tag. -/
def moduleLicense (content : List Char) : Option (List Char) :=
  match findBlock content with
  | none => none
  | some b => (tagCapture (toL "@license") b).map pyStrip

/-- Lines 41-43: the version taken from the `@version` tag of the first
block comment (before the fallback of lines 72-76 is considered). -/
def blockVersion (content : List Char) : Option (List Char) :=
  match findBlock content with
  | none => none
  | some b => (tagCapture (toL "@version") b).map pyStrip

/-- Lines 41-43 and 72-76: `module['version']`, falling back to the
in-code assignment pattern when the tag value is absent or empty
(`if not module['version']`). -/
def moduleVersion (content : List Char) : Option (List Char) :=
  match blockVersion content with
  | some v =>
    if v.isEmpty then
      match versionAssign content with
      | some s => some s
      | none => some v
    else some v
  | none =>
    match versionAssign content with
    | some s => some s
    | none => none

/-- The tag value as the claim words it: the trimmed remainder of the
first line after the first occurrence of the tag keyword (definition
written from the spec, for comparison with `tagCapture`). -/
def specTagValue (tag b : List Char) : Option (List Char) :=
  match findSplit tag b with
  | none => none
  | some (_, rest) => some (pyStrip (rest.takeWhile (fun c => c != '\n')))

/-- `noTagBefore tag b n` states (as a Bool) that no occurrence of `tag`
starts at a position `< n` of `b`. -/
def noTagBefore (tag b : List Char) (n : Nat) : Bool :=
  (List.range n).all (fun p => !startsWithL tag (List.drop p b))

/-- Input of the C2 counterexample: the `@version` tag is immediately
followed by a newline, so `\s+` crosses the line break and `([^\n]+)`
captures the whole next line. -/
def c2content : List Char :=
  toL "--[[\nTitle\n@version\n@author Alice\n@license MIT\n]]\nx = 1\n"

/-- The block comment body of `c2content`. -/
def c2block : List Char :=
  toL "\nTitle\n@version\n@author Alice\n@license MIT\n"

/-- Witness source for the amended C2 claim: all three tags carry a
same-line payload. -/
def c2w1 : List Char :=
  toL "--[[\nT\n@version 1.2\n@author Al\n@license MIT\n]]"

/-- The block comment body of `c2w1`. -/
def c2w1b : List Char := toL "\nT\n@version 1.2\n@author Al\n@license MIT\n"

/-- Witness source for the fallback conjunct of the amended C2 claim: no
`@version` tag, but an in-code `version = "2.0"` assignment. -/
def c2w4 : List Char := toL "--[[\nT\n@author A\n]]\nversion = \"2.0\"\n"

/-! ## C3: privacy heuristics for function matches

`parse_file`, lines 148-152. -/

/-- Lines 149-152: a signature match is skipped when it was declared
`local` with a bare name, or when its identifier contains an underscore
and either starts with `'_'` or contains `"._"`. -/
def funcExcluded (isLocal : Bool) (name : List Char) : Bool :=
  (isLocal && !chIn '.' name && !chIn ':' name) ||
  (chIn '_' name &&
    (startsWithL (toL "_") name || containsSub (toL "._") name))

/-! ## C4/C5: parsing a function's comment block

`parse_file`, lines 143-190. -/

/-- Python `\w` restricted to ASCII input (letter, digit or underscore). -/
def isWordChar (c : Char) : Bool := c.isAlphanum || c = '_'

/-- One `@param` triple (line 176-182). -/
structure ParamInfo where
  name : List Char
  type : List Char
  description : List Char
deriving DecidableEq

/-- The mutable pieces built by the documentation loop of lines 156-186:
`func_info['params']`, `func_info['returns']` and `desc_lines`. -/
structure DocState where
  params : List ParamInfo
  returns : List Char
  descLines : List (List Char)
deriving DecidableEq

/-- Lines 166-173: strip the line, then strip a `---` or `--` marker and
strip again; other lines are skipped (`continue`). -/
def commentContent (l : List Char) : Option (List Char) :=
  let s := pyStrip l
  if startsWithL (toL "---") s then some (pyStrip (List.drop 3 s))
  else if startsWithL (toL "--") s then some (pyStrip (List.drop 2 s))
  else none

/-- Line 176: `re.match(r'@param\s+(\w+\??)\s+(\S+)(?:\s+(.+))?', line)`.
Each greedy piece is deterministic here: `\s+` runs cannot backtrack
usefully because the token classes that follow them exclude whitespace,
and the optional trailing group reuses the `\s+(.+)` backtracking of
`wsDescend` (with `group(3) or ''` mapping an absent group to `''`). -/
def paramMatch (c : List Char) : Option ParamInfo :=
  if startsWithL (toL "@param") c then
    let r0 := List.drop 6 c
    let ws1 := r0.takeWhile pyWs
    if ws1.isEmpty then none
    else
      let r1 := r0.drop ws1.length
      let nm := r1.takeWhile isWordChar
      if nm.isEmpty then none
      else
        let r2 := r1.drop nm.length
        let nmq := if r2.head? = some '?' then nm ++ ['?'] else nm
        let r3 := if r2.head? = some '?' then r2.drop 1 else r2
        let ws2 := r3.takeWhile pyWs
        if ws2.isEmpty then none
        else
          let r4 := r3.drop ws2.length
          let ty := r4.takeWhile (fun ch => !pyWs ch)
          if ty.isEmpty then none
          else
            let r5 := r4.drop ty.length
            some { name := nmq, type := ty,
                   description := (wsDescend r5
                     ((r5.takeWhile pyWs).length)).getD [] }
  else none

/-- Line 184: `line.replace('@return', '').strip()` — every occurrence of
the keyword is removed before trimming. -/
def returnPayload (c : List Char) : List Char :=
  pyStrip (replaceAll (toL "@return") [] c)

/-- Lines 166-186: processing of one line of the comment block. -/
def procLine (st : DocState) (l : List Char) : DocState :=
  match commentContent l with
  | none => st
  | some c =>
    if startsWithL (toL "@param") c then
      match paramMatch c with
      | some t => { st with params := st.params ++ [t] }
      | none => st
    else if startsWithL (toL "@return") c then
      { st with returns := returnPayload c }
    else if startsWithL (toL "@") c then st
    else { st with descLines := st.descLines ++ [c] }

/-- Lines 165-186: the whole `for line in doc_block.split('\n')` loop. -/
def parseDocBlock (doc : List Char) : DocState :=
  (splitNl doc).foldl procLine ⟨[], [], []⟩

/-- One documented function record (lines 156-162 and 188). -/
structure FuncInfo where
  name : List Char
  params : List ParamInfo
  returns : List Char
  descr : List Char
  line : Nat
deriving DecidableEq

/-- Lines 156-188: assemble `func_info` for one signature match. -/
def mkFuncInfo (name doc : List Char) (line : Nat) : FuncInfo :=
  { name := name, params := (parseDocBlock doc).params,
    returns := (parseDocBlock doc).returns,
    descr := joinSpace (parseDocBlock doc).descLines, line := line }

/-- Line 189: `if func_info['description'] or func_info['params'] or
func_info['returns']`. -/
def retainCond (fi : FuncInfo) : Bool :=
  !fi.descr.isEmpty || !fi.params.isEmpty || !fi.returns.isEmpty

/-- Lines 148-190: the whole per-match processing — privacy exclusion,
comment-block parsing and the retention test. -/
def processMatch (isLocal : Bool) (name doc : List Char) (line : Nat) :
    Option FuncInfo :=
  if funcExcluded isLocal name then none
  else if retainCond (mkFuncInfo name doc line) then
    some (mkFuncInfo name doc line)
  else none

/-! ## C6: `@example` extraction from the block comment

`parse_file`, lines 92-126. -/

/-- Separator match of `re.split(r'@example\s*\n', block)` at a fixed
position: the literal `@example`, then a whitespace run; greedy `\s*`
followed by a mandatory `\n` consumes the run up to and including its
last newline, so the run must contain at least one newline.  Returns the
separator length. -/
def exSep (l : List Char) : Option Nat :=
  if startsWithL (toL "@example") l then
    let w2 := (List.drop 8 l).takeWhile pyWs
    if chIn '\n' w2 then
      some (8 + w2.length - (w2.reverse.takeWhile (fun c => c != '\n')).length)
    else none
  else none

/-- Line 96: the scanning loop of `re.split` (leftmost separator,
non-overlapping), with fuel bounded by the text length. -/
def splitExGo : Nat → List Char → List (List Char)
  | 0, l => [l]
  | Nat.succ _, [] => [[]]
  | Nat.succ f, c :: r =>
    match exSep (c :: r) with
    | some n => [] :: splitExGo f (List.drop n (c :: r))
    | none =>
      match splitExGo f r with
      | [] => [[c]]
      | h :: t => (c :: h) :: t

/-- Line 96: `re.split(r'@example\s*\n', block)`. -/
def splitExample (block : List Char) : List (List Char) :=
  splitExGo block.length block

/-- The lookahead `@(?:module|author|version|license)\b` of line 101,
tested at the start of a segment (`\b` holds when the next character is
absent or not a word character). -/
def startsModTag (seg : List Char) : Bool :=
  [toL "@module", toL "@author", toL "@version", toL "@license"].any
    (fun kw => startsWithL kw seg &&
      (match (List.drop kw.length seg).head? with
        | none => true
        | some ch => !isWordChar ch))

/-- Line 101: `re.match(r'((?:(?!@(?:module|author|version|license)\b).*\n?)*)',
part, re.MULTILINE | re.DOTALL).group(1)`.  Because of `re.DOTALL`, `.*`
in the first loop iteration greedily consumes the whole segment (the
lookahead is only tested at iteration starts), so the group is the entire
segment unless the segment itself starts with one of the four module
tags, in which case the group is empty. -/
def exampleGroup (seg : List Char) : List Char :=
  if startsModTag seg then [] else seg

/-- Line 111: `len(line) - len(line.lstrip())`. -/
def lineIndent (l : List Char) : Nat := l.length - (l.dropWhile pyWs).length

/-- Lines 108-112: minimum indentation over non-blank lines
(`float('inf')` modelled as `none`). -/
def minIndentOf (lines : List (List Char)) : Option Nat :=
  lines.foldl (fun acc l =>
    if (pyStrip l).isEmpty then acc
    else
      match acc with
      | none => some (lineIndent l)
      | some m => some (Nat.min m (lineIndent l))) none

/-- Lines 113-122: remove the minimum indentation from every line long
enough, when it is finite and positive. -/
def cleanLines (lines : List (List Char)) : List (List Char) :=
  match minIndentOf lines with
  | some m =>
    if 0 < m then
      lines.map (fun l => if m ≤ l.length then List.drop m l else l)
    else lines
  | none => lines

/-- Lines 106-124: dedent the example text and strip the joined result. -/
def processExampleText (t : List Char) : List Char :=
  pyStrip (joinNl (cleanLines (splitNl t)))

/-- Lines 97-126: processing of one split part (parts after the first). -/
def exStep (acc : List (List Char)) (part : List Char) : List (List Char) :=
  if (pyStrip (exampleGroup part)).isEmpty then acc
  else if (processExampleText (exampleGroup part)).isEmpty then acc
  else acc ++ [processExampleText (exampleGroup part)]

/-- Lines 92-126: `module['examples']` collected from the block comment. -/
def extractExamples (block : List Char) : List (List Char) :=
  ((splitExample block).drop 1).foldl exStep []

/-- The amended per-segment specification: a segment starting with one of
the four module-level tags contributes nothing; otherwise the whole
segment is dedented, stripped, and kept when non-empty. -/
def exampleOfSeg (seg : List Char) : Option (List Char) :=
  if startsModTag seg then none
  else if (pyStrip seg).isEmpty then none
  else if (processExampleText seg).isEmpty then none
  else some (processExampleText seg)

/-- The stored value the original claim predicts for a segment: minimum
common leading whitespace removed from every line, then leading and
trailing blank lines trimmed (definition written from the claim's words,
for the counterexample). -/
def claimSegValue (seg : List Char) : List Char :=
  joinNl ((((splitNl seg).map
      (List.drop ((minIndentOf (splitNl seg)).getD 0))).dropWhile
        (fun l => (pyStrip l).isEmpty)).reverse.dropWhile
          (fun l => (pyStrip l).isEmpty)).reverse

/-- Block comment body of the C6 counterexample. -/
def c6block : List Char := toL "Title\n@example\n@author Bob\nhello\n"

/-! ## C9: source file filtering

`generate`, lines 847-859. -/

/-- Lines 852-857: a discovered file is skipped when its relative path
contains `data/`, `test/` or `.git` as a substring, or starts with `lib/`
without starting with `tac/lib/`. -/
def shouldSkip (relPath : List Char) : Bool :=
  (containsSub (toL "data/") relPath || containsSub (toL "test/") relPath ||
    containsSub (toL ".git") relPath) ||
  (startsWithL (toL "lib/") relPath &&
    !startsWithL (toL "tac/lib/") relPath)

/-- Generic single-character split (Python `s.split(sep)`). -/
def splitCh (sep : Char) : List Char → List (List Char)
  | [] => [[]]
  | c :: r =>
    let rest := splitCh sep r
    if c = sep then [] :: rest
    else
      match rest with
      | [] => [[c]]
      | h :: t => (c :: h) :: t

/-- The exclusion predicate as the claim words it: some directory
component of the relative path (all components but the file name) is
literally named `data`, `test` or `.git`, or the top-level `lib/` rule
applies (definition written from the claim's words, for the
counterexample). -/
def claimSkip (relPath : List Char) : Bool :=
  ((splitCh '/' relPath).dropLast).any
    (fun d => d == toL "data" || d == toL "test" || d == toL ".git") ||
  (startsWithL (toL "lib/") relPath &&
    !startsWithL (toL "tac/lib/") relPath)

/-! ## C7: locating function signatures and their line numbers

`parse_file`, lines 143-154: the pattern
`((?:[ \t]*---?.*?\n)+)(?:[ \t]*\n)*[ \t]*(local\s+)?function\s+([\w.:]+)\s*\((.*?)\)`
is scanned with `re.finditer` (leftmost matches, non-overlapping), and
`line_num = content[:match.start()].count('\n') + 1`.  Every greedy or
lazy sub-pattern here is deterministic (see the doc comments below), so
the matcher is modelled as a function. -/

/-- One comment line `[ \t]*---?.*?\n`: optional spaces and tabs, two
dashes, the lazy rest of the line and its newline (the optional third
dash and the lazy `.*?` together simply consume up to the first
newline).  Returns the consumed text and the remainder. -/
def matchCommentLine (l : List Char) : Option (List Char × List Char) :=
  if startsWithL (toL "--") (l.dropWhile isSpTab) then
    match (List.drop 2 (l.dropWhile isSpTab)).dropWhile
        (fun c => c != '\n') with
    | _ :: rest2 =>
      some (l.takeWhile isSpTab ++ toL "--" ++
        (List.drop 2 (l.dropWhile isSpTab)).takeWhile (fun c => c != '\n') ++
        ['\n'], rest2)
    | [] => none
  else none

/-- The greedy `(...)+` over comment lines (giving a line back can never
help: the following pattern can only match at `local` or `function`, and
a returned line starts with `--` after indentation).  Fuel-bounded by the
remaining length. -/
def matchCommentLinesGo : Nat → List Char → List Char × List Char
  | 0, l => ([], l)
  | Nat.succ f, l =>
    match matchCommentLine l with
    | none => ([], l)
    | some (c, r) =>
      (c ++ (matchCommentLinesGo f r).1, (matchCommentLinesGo f r).2)

/-- One blank line `[ \t]*\n`. -/
def matchBlankLine (l : List Char) : Option (List Char × List Char) :=
  if (l.dropWhile isSpTab).head? = some '\n' then
    some (l.takeWhile isSpTab ++ ['\n'], (l.dropWhile isSpTab).tail)
  else none

/-- The greedy `(?:[ \t]*\n)*` over blank lines. -/
def matchBlanksGo : Nat → List Char → List Char × List Char
  | 0, l => ([], l)
  | Nat.succ f, l =>
    match matchBlankLine l with
    | none => ([], l)
    | some (c, r) =>
      (c ++ (matchBlanksGo f r).1, (matchBlanksGo f r).2)

/-- `(local\s+)?`: greedy; when `local` is present but not followed by
whitespace the group is skipped (and the subsequent `function` literal
then fails anyway, since the text still starts with `local`).  Returns
the consumed group text (possibly empty) and the remainder. -/
def matchLocal (r4 : List Char) : List Char × List Char :=
  if startsWithL (toL "local") r4 then
    if ((List.drop 5 r4).takeWhile pyWs).isEmpty then ([], r4)
    else (toL "local" ++ (List.drop 5 r4).takeWhile pyWs,
      (List.drop 5 r4).dropWhile pyWs)
  else ([], r4)

/-- A character of `[\w.:]`. -/
def isNameChar (c : Char) : Bool := isWordChar c || c = '.' || c = ':'

/-- `function\s+([\w.:]+)\s*\((.*?)\)`: the literal keyword, mandatory
whitespace, the identifier, optional whitespace, and the lazily matched
parameter list up to the first `)` (which must come before any newline,
since `.` does not match newlines here).  Returns
`(ws1, name, ws2, params)`. -/
def matchFuncTail (r5 : List Char) : Option (List Char × List Char ×
    List Char × List Char) :=
  if startsWithL (toL "function") r5 then
    if ((List.drop 8 r5).takeWhile pyWs).isEmpty then none
    else
      match ((List.drop 8 r5).dropWhile pyWs).takeWhile isNameChar with
      | [] => none
      | n0 :: nrest =>
        match (((List.drop 8 r5).dropWhile pyWs).dropWhile
            isNameChar).dropWhile pyWs with
        | c :: r9 =>
          if c = '(' then
            if chIn '\n' (r9.takeWhile (fun d => d != ')')) then none
            else
              match r9.dropWhile (fun d => d != ')') with
              | _ :: _ =>
                some ((List.drop 8 r5).takeWhile pyWs, n0 :: nrest,
                  (((List.drop 8 r5).dropWhile pyWs).dropWhile
                    isNameChar).takeWhile pyWs,
                  r9.takeWhile (fun d => d != ')'))
              | [] => none
          else none
        | [] => none
  else none

/-- The groups and consumed segments of one match of the function
pattern: the comment block (group 1), the blank lines, the indentation,
the `local\s+` group text (group 2, empty when absent), the whitespace
after `function`, the identifier (group 3), the whitespace before `(`
and the parameter list (group 4). -/
structure FMatch where
  doc : List Char
  blank : List Char
  indent : List Char
  localTxt : List Char
  ws1 : List Char
  fname : List Char
  ws2 : List Char
  fparams : List Char
deriving DecidableEq

/-- Offset from the match start to the `function`/`local` keyword. -/
def preLen (m : FMatch) : Nat :=
  m.doc.length + m.blank.length + m.indent.length + m.localTxt.length

/-- Total length of the matched text. -/
def consumedLen (m : FMatch) : Nat :=
  preLen m + 8 + m.ws1.length + m.fname.length + m.ws2.length + 1 +
    m.fparams.length + 1

/-- The comment block: one mandatory comment line followed by the greedy
run of further comment lines. -/
def stageDoc (l : List Char) : Option (List Char × List Char) :=
  match matchCommentLine l with
  | none => none
  | some (c1, r1) =>
    some (c1 ++ (matchCommentLinesGo r1.length r1).1,
      (matchCommentLinesGo r1.length r1).2)

/-- One attempt of the whole function pattern at a fixed position. -/
def matchFuncAt (l : List Char) : Option FMatch :=
  match stageDoc l with
  | none => none
  | some (doc, r2) =>
    match matchFuncTail ((matchLocal
        (((matchBlanksGo r2.length r2).2).dropWhile isSpTab)).2) with
    | some (ws1, nm, ws2, ps) =>
      some ⟨doc, (matchBlanksGo r2.length r2).1,
        ((matchBlanksGo r2.length r2).2).takeWhile isSpTab,
        (matchLocal (((matchBlanksGo r2.length r2).2).dropWhile
          isSpTab)).1,
        ws1, nm, ws2, ps⟩
    | none => none

/-- `re.finditer`: leftmost matches, non-overlapping, continuing after
each match's end; fuel-bounded by the text length (each step consumes at
least one character). -/
def findFuncGo : Nat → List Char → Nat → List (Nat × FMatch)
  | 0, _, _ => []
  | Nat.succ _, [], _ => []
  | Nat.succ f, c :: r, pos =>
    match matchFuncAt (c :: r) with
    | some m =>
      (pos, m) :: findFuncGo f (List.drop (consumedLen m) (c :: r))
        (pos + consumedLen m)
    | none => findFuncGo f r (pos + 1)

/-- All matches of the function pattern, with their start offsets. -/
def findFuncMatches (content : List Char) : List (Nat × FMatch) :=
  findFuncGo content.length content 0

/-- Lines 145-190: the retained function records of a file, in match
order; `line` is `content[:match.start()].count('\n') + 1` (line 154). -/
def parseFunctions (content : List Char) : List FuncInfo :=
  (findFuncMatches content).filterMap (fun qm =>
    processMatch (!qm.2.localTxt.isEmpty) qm.2.fname qm.2.doc
      (countNl (content.take qm.1) + 1))

/-- The 1-based line numbers of the `function`/`local` keywords of the
matches (the definition sites the claim refers to). -/
def funcKwLines (content : List Char) : List Nat :=
  (findFuncMatches content).map (fun qm =>
    countNl (List.take (qm.1 + preLen qm.2) content) + 1)

/-- Content of the C7 counterexample: a one-line comment block directly
above a function defined on source line 2. -/
def c7content : List Char := toL "---adds\nfunction obj.m(x)\nend\n"

/-! ## C8: the module page renderer

`generate_html_module`, lines 194-417.  The fixed page chrome is
transcribed verbatim from the f-string template (with `{{`/`}}` of the
f-string rendered as single braces, written `\x7b`/`\x7d`, and `'`
written `\x27`). -/

/-- Lines 196 and 378: `.replace('<', '&lt;').replace('>', '&gt;')`. -/
def escapeAngle (l : List Char) : List Char :=
  replaceAll (toL ">") (toL "&gt;") (replaceAll (toL "<") (toL "&lt;") l)

/-- Decimal rendering of a line number for `#L{line}`. -/
def natToL (n : Nat) : List Char := (Nat.repr n).toList

/-- The module record built by `parse_file` (lines 23-33), as consumed by
the renderers. -/
structure Module where
  name : List Char
  filename : List Char
  path : List Char
  descr : List Char
  examples : List (List Char)
  functions : List FuncInfo
  version : Option (List Char)
  author : Option (List Char)
  license : Option (List Char)
deriving DecidableEq

/-- Line 197: the GitHub deep link base for a module. -/
def githubUrlOf (m : Module) : List Char :=
  toL "https://github.com/Twijn/tac/blob/main/" ++ m.path

/-- Line 199: the version badge (absent when the version is `None` or
empty, by Python truthiness). -/
def versionBadge (m : Module) : List Char :=
  match m.version with
  | some v =>
    if v.isEmpty then []
    else toL " <span class=\"version-badge\">v" ++ v ++ toL "</span>"
  | none => []

/-- Lines 201-360: the fixed page chrome before the title interpolation. -/
def tmplHead1 : List Char := toL "<!DOCTYPE html>
<html lang=\"en\">
<head>
    <meta charset=\"UTF-8\">
    <meta name=\"viewport\" content=\"width=device-width, initial-scale=1.0\">
    <title>"

/-- Lines 206-358: chrome between the two name interpolations (the CSS).  -/
def tmplHead2 : List Char := toL " - TAC Documentation</title>
    <link href=\"https://cdnjs.cloudflare.com/ajax/libs/prism/1.29.0/themes/prism-tomorrow.min.css\" rel=\"stylesheet\" />
    <style>
        :root \x7b
            --bg: #ffffff;
            --text: #1a1a1a;
            --link: #0066cc;
            --border: #e0e0e0;
            --code-bg: #f5f5f5;
        \x7d
        @media (prefers-color-scheme: dark) \x7b
            :root \x7b
                --bg: #1a1a1a;
                --text: #e0e0e0;
                --link: #4d9fff;
                --border: #333333;
                --code-bg: #2a2a2a;
            \x7d
        \x7d
        * \x7b
            margin: 0;
            padding: 0;
            box-sizing: border-box;
        \x7d
        body \x7b
            font-family: -apple-system, BlinkMacSystemFont, \x27Segoe UI\x27, Roboto, sans-serif;
            line-height: 1.6;
            color: var(--text);
            background: var(--bg);
            padding: 2rem;
            max-width: 1200px;
            margin: 0 auto;
        \x7d
        .header \x7b
            border-bottom: 2px solid var(--border);
            padding-bottom: 1.5rem;
            margin-bottom: 2rem;
        \x7d
        .header h1 \x7b
            margin-bottom: 1rem;
            font-size: 2.5rem;
        \x7d
        .header p \x7b
            font-size: 1.1rem;
            line-height: 1.8;
            opacity: 0.9;
        \x7d
        .metadata \x7b
            font-size: 0.9rem;
            opacity: 0.8;
            margin-top: 0.5rem;
        \x7d
        h2 \x7b
            margin-top: 3rem;
            margin-bottom: 1.5rem;
            padding-bottom: 0.5rem;
            border-bottom: 1px solid var(--border);
            font-size: 1.8rem;
        \x7d
        h3 \x7b
            margin-top: 1.5rem;
            margin-bottom: 0.75rem;
            font-size: 1.3rem;
        \x7d
        code \x7b
            background: var(--code-bg);
            padding: 0.2rem 0.4rem;
            border-radius: 3px;
            font-family: \x27Monaco\x27, \x27Courier New\x27, monospace;
            font-size: 0.9em;
        \x7d
        pre \x7b
            padding: 1rem;
            border-radius: 4px;
            overflow-x: auto;
            margin: 1rem 0;
            border: 1px solid var(--border);
        \x7d
        pre code \x7b
            background: none;
            padding: 0;
            font-size: 0.95em;
        \x7d
        .function:not(.token) \x7b
            margin: 2rem 0;
            padding: 1.5rem;
            border: 1px solid var(--border);
            border-radius: 6px;
        \x7d
        .function h3 \x7b
            margin-top: 0;
        \x7d
        .function > p \x7b
            margin: 1rem 0;
            line-height: 1.7;
        \x7d
        .params, .returns \x7b
            margin-top: 1rem;
        \x7d
        .params ul, .returns ul \x7b
            list-style: none;
            padding-left: 0;
        \x7d
        .params li, .returns li \x7b
            padding: 0.5rem 0;
            padding-left: 1rem;
            border-left: 3px solid var(--border);
            margin: 0.25rem 0;
        \x7d
        a \x7b
            color: var(--link);
            text-decoration: none;
        \x7d
        a:hover \x7b
            text-decoration: underline;
        \x7d
        .back-link \x7b
            margin-bottom: 1.5rem;
            font-size: 0.95rem;
        \x7d
        .version-badge \x7b
            display: inline-block;
            background: #2a3540;
            color: #8b949e;
            padding: 0.2rem 0.5rem;
            border-radius: 3px;
            font-size: 0.75em;
            font-weight: 500;
            margin-left: 1rem;
            vertical-align: middle;
        \x7d
        .github-link \x7b
            display: inline-block;
            padding: 0.5rem 1rem;
            background: var(--link);
            color: white;
            border: 1px solid var(--link);
            border-radius: 4px;
            text-decoration: none;
            font-size: 0.9em;
            transition: all 0.2s;
            margin-top: 1rem;
        \x7d
        .github-link:hover \x7b
            opacity: 0.85;
            text-decoration: none;
        \x7d
    </style>
</head>
<body>
    <div class=\"back-link\"><a href=\"index.html\">← Back to index</a></div>
    <div class=\"header\">
        <h1>"

/-- Lines 358-359: chrome between the version badge and the description. -/
def tmplHead3 : List Char := toL "</h1>
        <p>"

/-- Line 359-360: chrome after the description. -/
def tmplHead4 : List Char := toL "</p>
"

/-- Lines 362-368: the author/license metadata line. -/
def metadataBlock (m : Module) : List Char :=
  if m.author.isSome || m.license.isSome then
    toL "        <div class=\x27metadata\x27>" ++
    (match m.author with
      | some a => toL " Author: " ++ a
      | none => []) ++
    (match m.license with
      | some lc => toL " • License: " ++ lc
      | none => []) ++
    toL "</div>\n"
  else []

/-- Line 370-372: the GitHub link and the end of the header block. -/
def ghLink (m : Module) : List Char :=
  toL "        <a href=\"" ++ githubUrlOf m ++
    toL "\" class=\"github-link\" target=\"_blank\">View on GitHub →</a>\n    </div>\n"

/-- Concatenation of rendered fragments over a list (the `for` loops of
the renderer). -/
def catMap {α : Type} (g : α → List Char) (l : List α) : List Char :=
  l.foldr (fun x acc => g x ++ acc) []

/-- Lines 377-379: one example block (escaped). -/
def exampleBlock (e : List Char) : List Char :=
  toL "    <pre><code class=\x27language-lua\x27>" ++ escapeAngle e ++
    toL "</code></pre>\n"

/-- Lines 375-379: the Examples section (emitted only when non-empty). -/
def examplesSection (m : Module) : List Char :=
  if m.examples.isEmpty then []
  else toL "    <h2>Examples</h2>\n" ++ catMap exampleBlock m.examples

/-- Python `', '.join(...)` (line 386). -/
def joinCommaSpace : List (List Char) → List Char
  | [] => []
  | [a] => a
  | a :: rest => a ++ toL ", " ++ joinCommaSpace rest

/-- Lines 399-403: one parameter list item (no escaping). -/
def paramLi (p : ParamInfo) : List Char :=
  toL "                <li><code>" ++ p.name ++ toL "</code> (" ++ p.type ++
    toL ")" ++
  (if p.description.isEmpty then [] else toL ": " ++ p.description) ++
  toL "</li>\n"

/-- Lines 384-410: one function block (description, parameters and
returns are emitted verbatim, without angle-bracket escaping). -/
def funcBlock (gh : List Char) (f : FuncInfo) : List Char :=
  toL "    <div class=\x27function\x27>\n        <h3><code>" ++ f.name ++
    toL "(" ++ joinCommaSpace (f.params.map (fun p => p.name)) ++
    toL ")</code></h3>\n" ++
  (toL "        <a href=\x27" ++ gh ++ toL "#L" ++ natToL f.line ++
    toL "\x27 target=\x27_blank\x27 style=\x27font-size: 0.85em; opacity: 0.7;\x27>View source</a>\n") ++
  (if f.descr.isEmpty then []
   else toL "        <p>" ++ f.descr ++ toL "</p>\n") ++
  (if f.params.isEmpty then []
   else
     toL "        <div class=\x27params\x27>\n            <strong>Parameters:</strong>\n            <ul>\n" ++
     catMap paramLi f.params ++ toL "            </ul>\n        </div>\n") ++
  (if f.returns.isEmpty then []
   else
     toL "        <div class=\x27returns\x27><strong>Returns:</strong> " ++
     f.returns ++ toL "</div>\n") ++
  toL "    </div>\n"

/-- Lines 382-410: the Functions section. -/
def functionsSection (m : Module) : List Char :=
  if m.functions.isEmpty then []
  else toL "    <h2>Functions</h2>\n" ++
    catMap (funcBlock (githubUrlOf m)) m.functions

/-- Lines 412-416: the fixed page footer. -/
def tmplFoot : List Char :=
  toL "</body>\n<script src=\"https://cdnjs.cloudflare.com/ajax/libs/prism/1.29.0/prism.min.js\"></script>\n<script src=\"https://cdnjs.cloudflare.com/ajax/libs/prism/1.29.0/components/prism-lua.min.js\"></script>\n</html>\n"

/-- Lines 194-417: the whole module page. -/
def generate_html_module (m : Module) : List Char :=
  tmplHead1 ++ m.name ++ tmplHead2 ++ m.name ++ versionBadge m ++ tmplHead3 ++
  escapeAngle m.descr ++ tmplHead4 ++ metadataBlock m ++ ghLink m ++
  examplesSection m ++ functionsSection m ++ tmplFoot

/-- One parameter list item as the claim words it: with the description
escaped (definition written from the claim, for comparison). -/
def paramLiClaim (p : ParamInfo) : List Char :=
  toL "                <li><code>" ++ p.name ++ toL "</code> (" ++ p.type ++
    toL ")" ++
  (if p.description.isEmpty then []
   else toL ": " ++ escapeAngle p.description) ++
  toL "</li>\n"

/-- One function block as the claim words it: description, parameter
descriptions and returns text escaped. -/
def funcBlockClaim (gh : List Char) (f : FuncInfo) : List Char :=
  toL "    <div class=\x27function\x27>\n        <h3><code>" ++ f.name ++
    toL "(" ++ joinCommaSpace (f.params.map (fun p => p.name)) ++
    toL ")</code></h3>\n" ++
  (toL "        <a href=\x27" ++ gh ++ toL "#L" ++ natToL f.line ++
    toL "\x27 target=\x27_blank\x27 style=\x27font-size: 0.85em; opacity: 0.7;\x27>View source</a>\n") ++
  (if f.descr.isEmpty then []
   else toL "        <p>" ++ escapeAngle f.descr ++ toL "</p>\n") ++
  (if f.params.isEmpty then []
   else
     toL "        <div class=\x27params\x27>\n            <strong>Parameters:</strong>\n            <ul>\n" ++
     catMap paramLiClaim f.params ++ toL "            </ul>\n        </div>\n") ++
  (if f.returns.isEmpty then []
   else
     toL "        <div class=\x27returns\x27><strong>Returns:</strong> " ++
     escapeAngle f.returns ++ toL "</div>\n") ++
  toL "    </div>\n"

/-- The Functions section as the claim words it. -/
def functionsSectionClaim (m : Module) : List Char :=
  if m.functions.isEmpty then []
  else toL "    <h2>Functions</h2>\n" ++
    catMap (funcBlockClaim (githubUrlOf m)) m.functions

/-- The module page as the claim words it: every listed free-text field
escaped. -/
def generate_html_module_claim (m : Module) : List Char :=
  tmplHead1 ++ m.name ++ tmplHead2 ++ m.name ++ versionBadge m ++ tmplHead3 ++
  escapeAngle m.descr ++ tmplHead4 ++ metadataBlock m ++ ghLink m ++
  examplesSection m ++ functionsSectionClaim m ++ tmplFoot

/-- Module of the C8 counterexample: one function whose description
contains an angle bracket. -/
def c8module : Module :=
  { name := toL "m", filename := toL "m", path := toL "p.lua", descr := [],
    examples := [], functions := [⟨toL "a.b", [], [], ['x', '<', 'y'], 1⟩],
    version := none, author := none, license := none }

/-! ## C10: index page categorization

`generate_html_index`, lines 612-691.  Python dicts are modelled as
insertion-ordered association lists with the corresponding update
semantics. -/

/-- `d[k] = v` on an insertion-ordered dict: update in place, else
append. -/
def dictSet (k : List Char) (v : Module) :
    List (List Char × Module) → List (List Char × Module)
  | [] => [(k, v)]
  | (k2, v2) :: rest =>
    if k2 == k then (k2, v) :: rest else (k2, v2) :: dictSet k v rest

/-- `k in d` for the children dict. -/
def dictHasKey (k : List Char) : List (List Char × List Module) → Bool
  | [] => false
  | (k2, _) :: rest => k2 == k || dictHasKey k rest

/-- Lines 633-634: `if k not in d: d[k] = []`. -/
def dictEnsure (k : List Char) (d : List (List Char × List Module)) :
    List (List Char × List Module) :=
  if dictHasKey k d then d else d ++ [(k, [])]

/-- Lines 639-641: ensure the key exists, then `d[k].append(v)`. -/
def dictAppend (k : List Char) (v : Module) :
    List (List Char × List Module) → List (List Char × List Module)
  | [] => [(k, [v])]
  | (k2, l2) :: rest =>
    if k2 == k then (k2, l2 ++ [v]) :: rest
    else (k2, l2) :: dictAppend k v rest

/-- `d.get(k, [])`. -/
def dictGetD (k : List Char) : List (List Char × List Module) → List Module
  | [] => []
  | (k2, l2) :: rest => if k2 == k then l2 else dictGetD k rest

/-- Lines 614: `tac/core/` modules with no further slash after the
prefix. -/
def coreModules (modules : List Module) : List Module :=
  modules.filter (fun m => startsWithL (toL "tac/core/") m.path &&
    !chIn '/' (List.drop 9 m.path))

/-- Line 615. -/
def libModules (modules : List Module) : List Module :=
  modules.filter (fun m => startsWithL (toL "tac/lib/") m.path)

/-- Line 617. -/
def commandModules (modules : List Module) : List Module :=
  modules.filter (fun m => startsWithL (toL "tac/commands/") m.path)

/-- Lines 630-631: the parent key of a top-level extension file:
`tac.extensions.` plus the file name with every `.lua` removed. -/
def extKeyOf (p0 : List Char) : List Char :=
  toL "tac.extensions." ++ replaceAll (toL ".lua") [] p0

/-- Lines 624-641: one step of the loop building `extension_parents` and
`extension_children`. -/
def buildExtStep
    (st : List (List Char × Module) × List (List Char × List Module))
    (m : Module) :
    List (List Char × Module) × List (List Char × List Module) :=
  if startsWithL (toL "tac/extensions/") m.path then
    match splitCh '/' (List.drop 15 m.path) with
    | [p0] => (dictSet (extKeyOf p0) m st.1, dictEnsure (extKeyOf p0) st.2)
    | [p0, _] =>
      (st.1, dictAppend (toL "tac.extensions." ++ p0) m st.2)
    | _ => st
  else st

/-- Lines 620-641. -/
def buildExt (modules : List Module) :
    List (List Char × Module) × List (List Char × List Module) :=
  modules.foldl buildExtStep ([], [])

/-- Lexicographic order on strings (Python `<` on `str`). -/
def lexLe : List Char → List Char → Bool
  | [], _ => true
  | _ :: _, [] => false
  | a :: as, b :: bs => if a = b then lexLe as bs else decide (a < b)

/-- Stable insertion for the sort model. -/
def insortBy {α : Type} (le : α → α → Bool) (x : α) : List α → List α
  | [] => [x]
  | y :: rest => if le x y then x :: y :: rest else y :: insortBy le x rest

/-- Python `sorted` modelled as stable insertion sort. -/
def sortBy {α : Type} (le : α → α → Bool) : List α → List α
  | [] => []
  | x :: rest => insortBy le x (sortBy le rest)

/-- Line 644: `sorted(extension_parents.items(), key=lambda x: x[0])`. -/
def sortedParents (modules : List Module) : List (List Char × Module) :=
  sortBy (fun a b => lexLe a.1 b.1) (buildExt modules).1

/-- Lines 647-649: core + command modules, the parent values, and every
children list. -/
def categorizedOf (modules : List Module) : List Module :=
  coreModules modules ++ commandModules modules ++
  (buildExt modules).1.map (fun kv => kv.2) ++
  (buildExt modules).2.foldr (fun kv acc => kv.2 ++ acc) []

/-- Line 650: `[m for m in modules if m not in categorized]`. -/
def otherModules (modules : List Module) : List Module :=
  modules.filter (fun m => !decide (m ∈ categorizedOf modules))

/-- Lines 654-691: the modules for which the index page emits an entry,
in emission order: the category lists (Core, Library, Command, Other;
the empty `Extension Modules` list is skipped), then each sorted parent
followed by its children sorted by name. -/
def indexEntries (modules : List Module) : List Module :=
  coreModules modules ++ libModules modules ++ commandModules modules ++
  otherModules modules ++
  (sortedParents modules).foldr (fun kv acc =>
    kv.2 :: (sortBy (fun a b => lexLe a.name b.name)
      (dictGetD kv.1 (buildExt modules).2) ++ acc)) []

/-- Invariant of `extension_parents` entries: the value is a module of
the input list whose extensions-relative path is a single segment, and
the key is derived from that segment. -/
def ParentSpec (ms : List Module) (kv : List Char × Module) : Prop :=
  ∃ p0, kv.2 ∈ ms ∧
    startsWithL (toL "tac/extensions/") kv.2.path = true ∧
    splitCh '/' (List.drop 15 kv.2.path) = [p0] ∧
    kv.1 = extKeyOf p0

/-- Invariant of `extension_children` entries: every listed module has a
two-segment extensions-relative path whose first segment determines the
entry's key. -/
def ChildSpec (kv : List Char × List Module) : Prop :=
  ∀ v ∈ kv.2, ∃ p0 p1,
    startsWithL (toL "tac/extensions/") v.path = true ∧
    splitCh '/' (List.drop 15 v.path) = [p0, p1] ∧
    kv.1 = toL "tac.extensions." ++ p0

/-- The orphan child of the C10 counterexample. -/
def c10child : Module :=
  { name := toL "tac.extensions.sub.child", filename := toL "child",
    path := toL "tac/extensions/sub/child.lua", descr := toL "c",
    examples := [], functions := [], version := none, author := none,
    license := none }

/-- A module whose file name `sub.lua.lua` also produces the parent key
`tac.extensions.sub` (every `.lua` is removed), although its path is not
`tac/extensions/sub.lua`. -/
def c10alias : Module :=
  { name := toL "tac.extensions.sub", filename := toL "sub.lua",
    path := toL "tac/extensions/sub.lua.lua", descr := toL "p",
    examples := [], functions := [], version := none, author := none,
    license := none }

/-! # Theorems -/

/-! ## C1 -/

theorem descLoop_true (ls : List (List Char)) :
    descLoop true ls =
      ((ls.map pyStrip).takeWhile (fun l => !startsWithL (toL "@") l)).filter
        (fun l => !l.isEmpty) := by
  induction ls with
  | nil => rfl
  | cons l rest ih =>
    simp only [descLoop, List.map_cons]
    by_cases h1 : startsWithL (toL "@") (pyStrip l)
    · simp [h1, List.takeWhile_cons]
    · by_cases h2 : (pyStrip l).isEmpty
      · simp [h1, h2, List.takeWhile_cons, List.filter_cons, ih]
      · simp [h1, h2, List.takeWhile_cons, List.filter_cons, ih]

theorem descLoop_false (ls : List (List Char)) :
    descLoop false ls =
      (match (ls.map pyStrip).dropWhile
          (fun l => l.isEmpty || startsWithL (toL "@") l) with
        | [] => []
        | _ :: rest =>
          (rest.takeWhile (fun l => !startsWithL (toL "@") l)).filter
            (fun l => !l.isEmpty)) := by
  induction ls with
  | nil => rfl
  | cons l rest ih =>
    simp only [descLoop, List.map_cons]
    by_cases h2 : (pyStrip l).isEmpty
    · simp [h2, List.dropWhile_cons, ih]
    · by_cases h1 : startsWithL (toL "@") (pyStrip l)
      · simp [h1, h2, List.dropWhile_cons, ih]
      · simp [h1, h2, List.dropWhile_cons, descLoop_true]

/-- C1 (amended): for every block comment body, the description computed by
the code (lines 55-70) equals the amended specification: tag lines before
the title do not terminate collection; the title is the first non-empty
non-tag line; collection of non-empty lines stops at the first tag line
after the title. -/
theorem C1_description_amended (block : List Char) :
    descFromBlock block = descFromBlockAmended block := by
  unfold descFromBlock descFromBlockAmended
  rw [descLoop_false]

/-- C1 (counterexample): in the block comment body
`"@version 1.0\nTitle\nDesc"` the first non-empty line starts with a tag,
yet the parsed description is `"Desc"`, not empty: the leading tag line is
skipped, `Title` is consumed as the title, and `Desc` is collected. -/
theorem C1_counterexample :
    descFromBlock (toL "@version 1.0\nTitle\nDesc") = toL "Desc" ∧
    startsWithL (toL "@")
      (pyStrip (((splitNl (toL "@version 1.0\nTitle\nDesc")).filter
        (fun l => !(pyStrip l).isEmpty)).headD [])) = true ∧
    toL "Desc" ≠ [] := by
  refine ⟨by decide, by decide, by decide⟩

/-! ## C2 -/

theorem noTagBefore_spec (tag b : List Char) (n : Nat)
    (h : noTagBefore tag b n = true) :
    ∀ p, p < n → startsWithL tag (List.drop p b) = false := by
  intro p hp
  simp only [noTagBefore, List.all_eq_true] at h
  have := h p (List.mem_range.mpr hp)
  simpa using this

theorem isPrefixOf_append_self (p t : List Char) :
    p.isPrefixOf (p ++ t) = true := by
  induction p with
  | nil => simp [List.isPrefixOf]
  | cons c r ih => simp [List.isPrefixOf, ih]

theorem findSplit_cons (pat : List Char) (c : Char) (r : List Char) :
    findSplit pat (c :: r) =
      if pat.isPrefixOf (c :: r) then
        some ([], List.drop pat.length (c :: r))
      else
        match findSplit pat r with
        | some (b, a) => some (c :: b, a)
        | none => none := rfl

theorem tagCapture_cons (tag : List Char) (c : Char) (r : List Char) :
    tagCapture tag (c :: r) =
      match tagTryAt tag (c :: r) with
      | some v => some v
      | none => tagCapture tag r := rfl

theorem takeWhile_append_exact {α : Type} (p : α → Bool) (w : List α)
    (c0 : α) (r0 : List α) (hws : ∀ c ∈ w, p c = true) (hc0 : p c0 = false) :
    (w ++ c0 :: r0).takeWhile p = w := by
  induction w with
  | nil => simp [List.takeWhile_cons, hc0]
  | cons a as ih =>
    have ha : p a = true := hws a (by simp)
    simp only [List.cons_append, List.takeWhile_cons, ha, if_true]
    rw [ih (fun c hc => hws c (by simp [hc]))]

theorem takeWhile_append_all {α : Type} (p : α → Bool) (w r : List α)
    (hws : ∀ c ∈ w, p c = true) :
    (w ++ r).takeWhile p = w ++ r.takeWhile p := by
  induction w with
  | nil => simp
  | cons a as ih =>
    have ha : p a = true := hws a (by simp)
    simp only [List.cons_append, List.takeWhile_cons, ha, if_true]
    rw [ih (fun c hc => hws c (by simp [hc]))]

theorem dropWhile_append_all {α : Type} (p : α → Bool) (w r : List α)
    (hws : ∀ c ∈ w, p c = true) :
    (w ++ r).dropWhile p = r.dropWhile p := by
  induction w with
  | nil => simp
  | cons a as ih =>
    have ha : p a = true := hws a (by simp)
    simp only [List.cons_append, List.dropWhile_cons, ha, if_true]
    exact ih (fun c hc => hws c (by simp [hc]))

theorem dropWhile_append_singleton_ne_nil {α : Type} (p : α → Bool)
    (xs : List α) (a : α) (h : p a = false) :
    (xs ++ [a]).dropWhile p ≠ [] := by
  induction xs with
  | nil => simp [List.dropWhile_cons, h]
  | cons x xs ih =>
    simp only [List.cons_append, List.dropWhile_cons]
    by_cases hx : p x
    · simpa [hx] using ih
    · simp [hx]

theorem pyStrip_cons_ne_nil (c0 : Char) (r0 : List Char)
    (h : pyWs c0 = false) : pyStrip (c0 :: r0) ≠ [] := by
  unfold pyStrip
  rw [List.dropWhile_cons_of_neg (by simp [h]), List.reverse_cons]
  intro hcon
  rw [List.reverse_eq_nil_iff] at hcon
  exact dropWhile_append_singleton_ne_nil pyWs r0.reverse c0 h hcon

theorem pyStrip_ws_prefix (w x : List Char)
    (hw : ∀ c ∈ w, pyWs c = true) : pyStrip (w ++ x) = pyStrip x := by
  unfold pyStrip
  rw [dropWhile_append_all pyWs w x hw]

theorem pyWs_of_isSpTab (c : Char) (h : isSpTab c = true) : pyWs c = true := by
  simp only [isSpTab, Bool.or_eq_true, decide_eq_true_eq] at h
  rcases h with h | h <;> simp [pyWs, h]

theorem ne_nl_of_isSpTab (c : Char) (h : isSpTab c = true) :
    (c != '\n') = true := by
  simp only [isSpTab, Bool.or_eq_true, decide_eq_true_eq] at h
  rcases h with h | h <;> simp [h]

theorem tagCapture_skip (tag u l : List Char)
    (h : ∀ p, p < u.length → startsWithL tag (List.drop p (u ++ l)) = false) :
    tagCapture tag (u ++ l) = tagCapture tag l := by
  induction u with
  | nil => simp
  | cons c u' ih =>
    have h0 : tag.isPrefixOf (c :: (u' ++ l)) = false := by
      have := h 0 (by simp)
      simpa [startsWithL] using this
    have hrest : ∀ p, p < u'.length →
        startsWithL tag (List.drop p (u' ++ l)) = false := by
      intro p hp
      have := h (p + 1) (by simpa using Nat.succ_lt_succ hp)
      simpa [List.drop_succ_cons] using this
    calc tagCapture tag ((c :: u') ++ l)
        = tagCapture tag (c :: (u' ++ l)) := by rw [List.cons_append]
      _ = tagCapture tag (u' ++ l) := by
          rw [tagCapture_cons]
          simp [tagTryAt, h0]
      _ = tagCapture tag l := ih hrest

theorem tagCapture_none (tag l : List Char)
    (h : ∀ p, startsWithL tag (List.drop p l) = false) :
    tagCapture tag l = none := by
  induction l with
  | nil => rfl
  | cons c r ih =>
    have h0 : tag.isPrefixOf (c :: r) = false := by
      have := h 0
      simpa [startsWithL] using this
    have hrest : ∀ p, startsWithL tag (List.drop p r) = false := by
      intro p
      have := h (p + 1)
      simpa [List.drop_succ_cons] using this
    rw [tagCapture_cons]
    simp [tagTryAt, h0, ih hrest]

theorem findSplit_decomp (pat u rest : List Char) (hpat : pat ≠ [])
    (h : ∀ p, p < u.length →
      startsWithL pat (List.drop p (u ++ (pat ++ rest))) = false) :
    findSplit pat (u ++ (pat ++ rest)) = some (u, rest) := by
  induction u with
  | nil =>
    cases hp : pat with
    | nil => exact absurd hp hpat
    | cons q qs =>
      simp only [List.nil_append]
      rw [List.cons_append, findSplit_cons, ← List.cons_append,
        isPrefixOf_append_self (q :: qs) rest]
      simp [List.drop_left]
  | cons c u' ih =>
    have h0 : pat.isPrefixOf (c :: (u' ++ (pat ++ rest))) = false := by
      have := h 0 (by simp)
      simpa [startsWithL] using this
    have hrest : ∀ p, p < u'.length →
        startsWithL pat (List.drop p (u' ++ (pat ++ rest))) = false := by
      intro p hp
      have := h (p + 1) (by simpa using Nat.succ_lt_succ hp)
      simpa [List.drop_succ_cons] using this
    rw [List.cons_append, findSplit_cons, h0]
    simp only [Bool.false_eq_true, if_false]
    rw [ih hrest]

theorem tagTryAt_pos (tag w r : List Char) (c0 : Char) (r0 : List Char)
    (hws : ∀ c ∈ w, isSpTab c = true) (hw : w ≠ [])
    (hr : r = c0 :: r0) (hc0 : pyWs c0 = false) :
    tagTryAt tag (tag ++ (w ++ r)) =
      some (r.takeWhile (fun d => d != '\n')) := by
  unfold tagTryAt
  rw [isPrefixOf_append_self tag (w ++ r)]
  simp only [if_true]
  rw [List.drop_left tag (w ++ r)]
  have htw : (w ++ r).takeWhile pyWs = w := by
    rw [hr]
    exact takeWhile_append_exact pyWs w c0 r0
      (fun c hc => pyWs_of_isSpTab c (hws c hc)) hc0
  rw [htw]
  cases w with
  | nil => exact absurd rfl hw
  | cons w0 ws =>
    have hlen : (w0 :: ws).length = ws.length + 1 := by simp
    rw [hlen, wsDescend]
    have hd : List.drop (ws.length + 1) ((w0 :: ws) ++ r) = r := by
      have h5 := List.drop_left (w0 :: ws) r
      simp only [List.length_cons] at h5
      exact h5
    rw [hd, hr]
    have hne : c0 ≠ '\n' := by
      intro hcon
      rw [hcon] at hc0
      exact absurd hc0 (by decide)
    simp [hne]

theorem tagCapture_of_decomp (tag b u w r : List Char) (c0 : Char)
    (r0 : List Char) (htag : tag ≠ [])
    (hb : b = u ++ (tag ++ (w ++ r)))
    (h3 : noTagBefore tag b u.length = true)
    (hw : w ≠ []) (hws : w.all isSpTab = true)
    (hr : r = c0 :: r0) (hc0 : pyWs c0 = false) :
    tagCapture tag b = some (r.takeWhile (fun d => d != '\n')) ∧
    specTagValue tag b = some (pyStrip (r.takeWhile (fun d => d != '\n'))) ∧
    pyStrip (r.takeWhile (fun d => d != '\n')) ≠ [] := by
  have hws' : ∀ c ∈ w, isSpTab c = true := by
    intro c hc
    exact List.all_eq_true.mp hws c hc
  have hpos : ∀ p, p < u.length →
      startsWithL tag (List.drop p (u ++ (tag ++ (w ++ r)))) = false := by
    intro p hp
    have := noTagBefore_spec tag b u.length h3 p hp
    rwa [hb] at this
  refine ⟨?_, ?_, ?_⟩
  · rw [hb, tagCapture_skip tag u (tag ++ (w ++ r)) hpos]
    cases htg : tag with
    | nil => exact absurd htg htag
    | cons t ts =>
      rw [List.cons_append, tagCapture_cons, ← List.cons_append]
      rw [tagTryAt_pos (t :: ts) w r c0 r0 hws' hw hr hc0]
  · have hfs : findSplit tag (u ++ (tag ++ (w ++ r))) = some (u, w ++ r) :=
      findSplit_decomp tag u (w ++ r) htag hpos
    have hsv : specTagValue tag b =
        some (pyStrip ((w ++ r).takeWhile (fun c => c != '\n'))) := by
      unfold specTagValue
      rw [hb, hfs]
    rw [hsv]
    have h1 : (w ++ r).takeWhile (fun c => c != '\n') =
        w ++ r.takeWhile (fun c => c != '\n') :=
      takeWhile_append_all (fun c => c != '\n') w r
        (fun c hc => ne_nl_of_isSpTab c (hws' c hc))
    rw [h1, pyStrip_ws_prefix w (r.takeWhile (fun c => c != '\n'))
      (fun c hc => pyWs_of_isSpTab c (hws' c hc))]
  · have hne : c0 ≠ '\n' := by
      intro hcon
      rw [hcon] at hc0
      exact absurd hc0 (by decide)
    rw [hr, List.takeWhile_cons_of_pos (by simp [hne])]
    exact pyStrip_cons_ne_nil c0 _ hc0

/-- C2 (amended): when a metadata tag in the first block comment is
followed on the same line by a space/tab run and then a payload starting
with a non-whitespace character, the parsed field equals the trimmed
remainder of that line after the tag keyword, and for `@version` the
in-code fallback is not consulted; when the block comment contains no
occurrence of `@version` at all, the parsed version is the (unstripped)
quoted literal captured by the first in-code assignment match.  (The
unamended claim fails because `\s+` in the tag pattern can cross a line
break; see the counterexample.) -/
theorem C2_metadata_amended :
    (∀ (content b u w r : List Char) (c0 : Char) (r0 : List Char),
      findBlock content = some b →
      b = u ++ (toL "@version" ++ (w ++ r)) →
      noTagBefore (toL "@version") b u.length = true →
      w ≠ [] → w.all isSpTab = true →
      r = c0 :: r0 → pyWs c0 = false →
      moduleVersion content = specTagValue (toL "@version") b ∧
      moduleVersion content = blockVersion content) ∧
    (∀ (content b u w r : List Char) (c0 : Char) (r0 : List Char),
      findBlock content = some b →
      b = u ++ (toL "@author" ++ (w ++ r)) →
      noTagBefore (toL "@author") b u.length = true →
      w ≠ [] → w.all isSpTab = true →
      r = c0 :: r0 → pyWs c0 = false →
      moduleAuthor content = specTagValue (toL "@author") b) ∧
    (∀ (content b u w r : List Char) (c0 : Char) (r0 : List Char),
      findBlock content = some b →
      b = u ++ (toL "@license" ++ (w ++ r)) →
      noTagBefore (toL "@license") b u.length = true →
      w ≠ [] → w.all isSpTab = true →
      r = c0 :: r0 → pyWs c0 = false →
      moduleLicense content = specTagValue (toL "@license") b) ∧
    (∀ (content b s : List Char),
      findBlock content = some b →
      noTagBefore (toL "@version") b b.length = true →
      versionAssign content = some s →
      moduleVersion content = some s) := by
  refine ⟨?_, ?_, ?_, ?_⟩
  · intro content b u w r c0 r0 hfb hb h3 hw hws hr hc0
    obtain ⟨hcap, hspec, hne⟩ := tagCapture_of_decomp (toL "@version") b u w r
      c0 r0 (by decide) hb h3 hw hws hr hc0
    have hbv : blockVersion content =
        some (pyStrip (r.takeWhile (fun d => d != '\n'))) := by
      unfold blockVersion
      rw [hfb]
      show (tagCapture (toL "@version") b).map pyStrip = _
      rw [hcap]
      rfl
    have hempty : (pyStrip (r.takeWhile (fun d => d != '\n'))).isEmpty
        = false := by
      cases hv : pyStrip (r.takeWhile (fun d => d != '\n')) with
      | nil => exact absurd hv hne
      | cons a as => rfl
    have hmv : moduleVersion content =
        some (pyStrip (r.takeWhile (fun d => d != '\n'))) := by
      unfold moduleVersion
      rw [hbv]
      simp [hempty]
    exact ⟨by rw [hmv, hspec], by rw [hmv, hbv]⟩
  · intro content b u w r c0 r0 hfb hb h3 hw hws hr hc0
    obtain ⟨hcap, hspec, _⟩ := tagCapture_of_decomp (toL "@author") b u w r
      c0 r0 (by decide) hb h3 hw hws hr hc0
    unfold moduleAuthor
    rw [hfb]
    show (tagCapture (toL "@author") b).map pyStrip = _
    rw [hcap, hspec]
    rfl
  · intro content b u w r c0 r0 hfb hb h3 hw hws hr hc0
    obtain ⟨hcap, hspec, _⟩ := tagCapture_of_decomp (toL "@license") b u w r
      c0 r0 (by decide) hb h3 hw hws hr hc0
    unfold moduleLicense
    rw [hfb]
    show (tagCapture (toL "@license") b).map pyStrip = _
    rw [hcap, hspec]
    rfl
  · intro content b s hfb h3 hva
    have hnone : tagCapture (toL "@version") b = none := by
      apply tagCapture_none
      intro p
      by_cases hp : p < b.length
      · exact noTagBefore_spec (toL "@version") b b.length h3 p hp
      · have hdrop : List.drop p b = [] :=
          List.drop_eq_nil_of_le (Nat.le_of_not_lt hp)
        rw [hdrop]
        decide
    have hbv : blockVersion content = none := by
      unfold blockVersion
      rw [hfb]
      show (tagCapture (toL "@version") b).map pyStrip = _
      rw [hnone]
      rfl
    unfold moduleVersion
    rw [hbv, hva]

/-- C2 (witness for the amended theorem): concrete module sources
instantiating all four conjuncts. -/
theorem C2_metadata_amended_witness :
    (moduleVersion c2w1 = specTagValue (toL "@version") c2w1b ∧
      moduleVersion c2w1 = blockVersion c2w1) ∧
    moduleAuthor c2w1 = specTagValue (toL "@author") c2w1b ∧
    moduleLicense c2w1 = specTagValue (toL "@license") c2w1b ∧
    moduleVersion c2w4 = some (toL "2.0") := by
  refine ⟨?_, ?_, ?_, ?_⟩
  · exact C2_metadata_amended.1 c2w1 c2w1b (toL "\nT\n") (toL " ")
      (toL "1.2\n@author Al\n@license MIT\n") '1'
      (toL ".2\n@author Al\n@license MIT\n")
      (by decide) (by decide) (by decide) (by decide) (by decide)
      (by decide) (by decide)
  · exact C2_metadata_amended.2.1 c2w1 c2w1b (toL "\nT\n@version 1.2\n")
      (toL " ") (toL "Al\n@license MIT\n") 'A' (toL "l\n@license MIT\n")
      (by decide) (by decide) (by decide) (by decide) (by decide)
      (by decide) (by decide)
  · exact C2_metadata_amended.2.2.1 c2w1 c2w1b
      (toL "\nT\n@version 1.2\n@author Al\n") (toL " ") (toL "MIT\n") 'M'
      (toL "IT\n")
      (by decide) (by decide) (by decide) (by decide) (by decide)
      (by decide) (by decide)
  · exact C2_metadata_amended.2.2.2 c2w4 (toL "\nT\n@author A\n")
      (toL "2.0") (by decide) (by decide) (by decide)

/-- C2 (counterexample): in `c2content` the block comment contains
`@version`, `@author` and `@license` tags, and the remainder of the
`@version` line after the keyword is empty; the claim therefore demands an
empty parsed version, but the code's `\s+` crosses the newline and the
parsed version is the whole next line, `"@author Alice"`. -/
theorem C2_counterexample :
    findBlock c2content = some c2block ∧
    moduleVersion c2content = some (toL "@author Alice") ∧
    specTagValue (toL "@version") c2block = some [] ∧
    moduleVersion c2content ≠ specTagValue (toL "@version") c2block := by
  refine ⟨by decide, by decide, by decide, by decide⟩

/-! ## C3 -/


theorem chIn_of_startsWith_underscore (name : List Char)
    (h : startsWithL (toL "_") name = true) : chIn '_' name = true := by
  cases name with
  | nil => simp [startsWithL, toL, List.isPrefixOf] at h
  | cons c r =>
    have hc : c = '_' := by
      have h2 : List.isPrefixOf ['_'] (c :: r) = true := h
      simp only [List.isPrefixOf, Bool.and_eq_true, beq_iff_eq] at h2
      exact h2.1.symm
    simp [chIn, hc]

theorem chIn_of_containsSub_dotUnderscore (name : List Char)
    (h : containsSub (toL "._") name = true) : chIn '_' name = true := by
  induction name with
  | nil => simp [containsSub, toL, List.isPrefixOf] at h
  | cons c r ih =>
    simp only [containsSub, Bool.or_eq_true] at h
    rcases h with h | h
    · cases r with
      | nil =>
        have h2 : List.isPrefixOf ['.', '_'] [c] = true := h
        simp [List.isPrefixOf] at h2
      | cons c2 r2 =>
        have h2 : List.isPrefixOf ['.', '_'] (c :: c2 :: r2) = true := h
        simp only [List.isPrefixOf, Bool.and_eq_true, beq_iff_eq] at h2
        have : c2 = '_' := h2.2.1.symm
        simp [chIn, this]
    · have := ih h
      simp only [chIn, List.any_cons, Bool.or_eq_true]
      exact Or.inr this

/-- C3: a function-signature match is excluded by the privacy heuristics
exactly when (declared with `local` and the identifier has neither a dot
nor a colon) or (the identifier starts with an underscore or contains an
underscore right after a dot); and `foo.bar_baz` is never excluded. -/
theorem C3_privacy_heuristics :
    (∀ (isLocal : Bool) (name : List Char),
      funcExcluded isLocal name = true ↔
        ((isLocal = true ∧ chIn '.' name = false ∧ chIn ':' name = false) ∨
         (startsWithL (toL "_") name = true ∨
            containsSub (toL "._") name = true))) ∧
    (∀ isLocal : Bool, funcExcluded isLocal (toL "foo.bar_baz") = false) := by
  constructor
  · intro isLocal name
    unfold funcExcluded
    constructor
    · intro h
      simp only [Bool.or_eq_true, Bool.and_eq_true, Bool.not_eq_true'] at h
      rcases h with ⟨⟨h1, h2⟩, h3⟩ | ⟨_, h2⟩
      · exact Or.inl ⟨h1, h2, h3⟩
      · exact Or.inr h2
    · intro h
      simp only [Bool.or_eq_true, Bool.and_eq_true, Bool.not_eq_true']
      rcases h with ⟨h1, h2, h3⟩ | h | h
      · exact Or.inl ⟨⟨h1, h2⟩, h3⟩
      · exact Or.inr ⟨chIn_of_startsWith_underscore name h, Or.inl h⟩
      · exact Or.inr ⟨chIn_of_containsSub_dotUnderscore name h, Or.inr h⟩
  · intro isLocal
    cases isLocal <;> decide

/-! ## C4 and C5 -/

theorem isEmpty_false_iff {α : Type} (l : List α) :
    l.isEmpty = false ↔ l ≠ [] := by
  cases l <;> simp

theorem not_param_of_return (c : List Char)
    (h : startsWithL (toL "@return") c = true) :
    startsWithL (toL "@param") c = false := by
  rw [startsWithL, List.isPrefixOf_iff_prefix] at h
  obtain ⟨t, ht⟩ := h
  rw [← ht]
  rfl

theorem procLine_param (st : DocState) (l c : List Char) (t : ParamInfo)
    (hcc : commentContent l = some c)
    (hp : startsWithL (toL "@param") c = true)
    (hm : paramMatch c = some t) :
    procLine st l = { st with params := st.params ++ [t] } := by
  unfold procLine
  rw [hcc]
  simp [hp, hm]

theorem procLine_return (st : DocState) (l c : List Char)
    (hcc : commentContent l = some c)
    (hret : startsWithL (toL "@return") c = true) :
    procLine st l = { st with returns := returnPayload c } := by
  unfold procLine
  rw [hcc]
  simp [not_param_of_return c hret, hret]

/-- C4: per-match processing retains a function record iff it is not
excluded by the privacy heuristics and has a non-empty description, at
least one parameter, or a non-empty returns string; and the record for
`obj.method` documented only by `---@return string` is retained with
`returns = "string"`. -/
theorem C4_inclusion_invariant :
    (∀ (isLocal : Bool) (name doc : List Char) (ln : Nat) (fi : FuncInfo),
      processMatch isLocal name doc ln = some fi →
      (fi.descr ≠ [] ∨ fi.params ≠ [] ∨ fi.returns ≠ [])) ∧
    (∀ (isLocal : Bool) (name doc : List Char) (ln : Nat),
      funcExcluded isLocal name = false →
      retainCond (mkFuncInfo name doc ln) = true →
      processMatch isLocal name doc ln = some (mkFuncInfo name doc ln)) ∧
    (processMatch false (toL "obj.method") (toL "---@return string\n") 7 =
      some { name := toL "obj.method", params := [],
             returns := toL "string", descr := [], line := 7 }) := by
  refine ⟨?_, ?_, ?_⟩
  · intro isLocal name doc ln fi h
    unfold processMatch at h
    by_cases hex : funcExcluded isLocal name = true
    · rw [if_pos hex] at h
      exact absurd h (by simp)
    · rw [if_neg hex] at h
      by_cases hr : retainCond (mkFuncInfo name doc ln) = true
      · rw [if_pos hr] at h
        have hfi : fi = mkFuncInfo name doc ln := by
          injection h with h2
          exact h2.symm
        rw [hfi]
        simp only [retainCond, Bool.or_eq_true, Bool.not_eq_true',
          isEmpty_false_iff] at hr
        rcases hr with (h1 | h2) | h3
        · exact Or.inl h1
        · exact Or.inr (Or.inl h2)
        · exact Or.inr (Or.inr h3)
      · rw [if_neg hr] at h
        exact absurd h (by simp)
  · intro isLocal name doc ln hex hr
    unfold processMatch
    rw [if_neg (by simp [hex]), if_pos hr]
  · decide

/-- C4 (witness): concrete instantiations of both quantified conjuncts. -/
theorem C4_inclusion_invariant_witness :
    processMatch false (toL "a.b") (toL "--hello\n") 3 =
      some (mkFuncInfo (toL "a.b") (toL "--hello\n") 3) ∧
    ((mkFuncInfo (toL "obj.method") (toL "---@return string\n") 1).descr ≠ []
      ∨ (mkFuncInfo (toL "obj.method") (toL "---@return string\n") 1).params
          ≠ []
      ∨ (mkFuncInfo (toL "obj.method") (toL "---@return string\n") 1).returns
          ≠ []) := by
  constructor
  · exact C4_inclusion_invariant.2.1 false (toL "a.b") (toL "--hello\n") 3
      (by decide) (by decide)
  · exact C4_inclusion_invariant.1 false (toL "obj.method")
      (toL "---@return string\n") 1
      (mkFuncInfo (toL "obj.method") (toL "---@return string\n") 1)
      (by decide)

/-- C5: a comment line whose content starts with `@param` and matches the
parameter pattern appends exactly one triple to `params` (returns and
description untouched); a comment line whose content starts with
`@return` overwrites the single `returns` field (params and description
untouched); consequently, after a whole block, the last `@return` line
wins while parameters accumulate. -/
theorem C5_param_return_asymmetry :
    (∀ (st : DocState) (l c : List Char) (t : ParamInfo),
      commentContent l = some c →
      startsWithL (toL "@param") c = true →
      paramMatch c = some t →
      procLine st l = { st with params := st.params ++ [t] }) ∧
    (∀ (st : DocState) (l c : List Char),
      commentContent l = some c →
      startsWithL (toL "@return") c = true →
      procLine st l = { st with returns := returnPayload c }) ∧
    (∀ (ls : List (List Char)) (l c : List Char) (st0 : DocState),
      commentContent l = some c →
      startsWithL (toL "@return") c = true →
      ((ls ++ [l]).foldl procLine st0).returns = returnPayload c ∧
      ((ls ++ [l]).foldl procLine st0).params =
        (ls.foldl procLine st0).params ∧
      ((ls ++ [l]).foldl procLine st0).descLines =
        (ls.foldl procLine st0).descLines) := by
  refine ⟨procLine_param, procLine_return, ?_⟩
  intro ls l c st0 hcc hret
  rw [List.foldl_append]
  simp only [List.foldl_cons, List.foldl_nil]
  rw [procLine_return (ls.foldl procLine st0) l c hcc hret]
  exact ⟨rfl, rfl, rfl⟩

/-- C5 (witness): a block of one `@param` line and one `@return` line. -/
theorem C5_param_return_asymmetry_witness :
    procLine ⟨[], [], []⟩ (toL "--- @param x number the x") =
      { params := [⟨toL "x", toL "number", toL "the x"⟩], returns := [],
        descLines := [] } ∧
    procLine ⟨[], [], []⟩ (toL "-- @return number") =
      { params := [], returns := toL "number", descLines := [] } ∧
    (([toL "--- @return a", toL "-- @return b"].foldl procLine
        (⟨[], [], []⟩ : DocState)).returns = returnPayload (toL "@return b")
      ∧ ([toL "--- @return a", toL "-- @return b"].foldl procLine
          (⟨[], [], []⟩ : DocState)).params =
        ([toL "--- @return a"].foldl procLine
          (⟨[], [], []⟩ : DocState)).params
      ∧ ([toL "--- @return a", toL "-- @return b"].foldl procLine
          (⟨[], [], []⟩ : DocState)).descLines =
        ([toL "--- @return a"].foldl procLine
          (⟨[], [], []⟩ : DocState)).descLines) := by
  refine ⟨?_, ?_, ?_⟩
  · have h := C5_param_return_asymmetry.1 ⟨[], [], []⟩
      (toL "--- @param x number the x") (toL "@param x number the x")
      ⟨toL "x", toL "number", toL "the x"⟩ (by decide) (by decide) (by decide)
    exact h
  · have h := C5_param_return_asymmetry.2.1 ⟨[], [], []⟩
      (toL "-- @return number") (toL "@return number") (by decide) (by decide)
    rw [h]
    decide
  · exact C5_param_return_asymmetry.2.2 [toL "--- @return a"]
      (toL "-- @return b") (toL "@return b") ⟨[], [], []⟩
      (by decide) (by decide)

/-! ## C6 -/

theorem exStep_eq (acc : List (List Char)) (part : List Char) :
    exStep acc part =
      match exampleOfSeg part with
      | some v => acc ++ [v]
      | none => acc := by
  unfold exStep exampleOfSeg exampleGroup
  by_cases h1 : startsModTag part
  · simp [h1, pyStrip]
  · simp only [h1, if_false, Bool.false_eq_true]
    by_cases h2 : (pyStrip part).isEmpty
    · simp [h2]
    · simp only [h2, if_false, Bool.false_eq_true]
      by_cases h3 : (processExampleText part).isEmpty
      · simp [h3]
      · simp [h3]

theorem foldl_exStep (parts : List (List Char)) (acc : List (List Char)) :
    parts.foldl exStep acc = acc ++ parts.filterMap exampleOfSeg := by
  induction parts generalizing acc with
  | nil => simp
  | cons p ps ih =>
    rw [List.foldl_cons, exStep_eq]
    cases h : exampleOfSeg p with
    | none => simp [List.filterMap_cons, h, ih]
    | some v => simp [List.filterMap_cons, h, ih, List.append_assoc]

/-- C6 (amended): the stored examples are exactly, in encounter order, the
non-empty results of processing the parts after the first of the
`@example` split, where a part beginning with `@module`, `@author`,
`@version` or `@license` (at a word boundary) contributes nothing, and any
other part is kept whole (not truncated at later tags), dedented by the
minimum indentation of its non-blank lines (applied to lines long enough)
and stripped of leading and trailing whitespace. -/
theorem C6_examples_amended (block : List Char) :
    extractExamples block =
      ((splitExample block).drop 1).filterMap exampleOfSeg := by
  unfold extractExamples
  rw [foldl_exStep]
  simp

/-- C6 (counterexample): for a block whose `@example` segment begins with
`@author`, the code stores no example at all, while the claim predicts
the dedented and blank-trimmed segment `"@author Bob\nhello"`. -/
theorem C6_counterexample :
    extractExamples c6block = [] ∧
    (splitExample c6block).drop 1 = [toL "@author Bob\nhello\n"] ∧
    claimSegValue (toL "@author Bob\nhello\n") = toL "@author Bob\nhello" ∧
    toL "@author Bob\nhello" ≠ [] := by
  refine ⟨by decide, by decide, by decide, by decide⟩

/-! ## C7 -/

theorem dropWhile_head_false {α : Type} (p : α → Bool) (l : List α)
    (x : α) (xs : List α) (h : l.dropWhile p = x :: xs) : p x = false := by
  induction l with
  | nil => simp at h
  | cons c r ih =>
    rw [List.dropWhile_cons] at h
    by_cases hc : p c
    · rw [if_pos hc] at h
      exact ih h
    · rw [if_neg hc] at h
      injection h with h1 _
      rw [← h1]
      exact Bool.of_not_eq_true hc

theorem eq_append_drop_of_startsWith (p l : List Char)
    (h : startsWithL p l = true) : l = p ++ List.drop p.length l := by
  rw [startsWithL, List.isPrefixOf_iff_prefix] at h
  obtain ⟨t, ht⟩ := h
  subst ht
  rw [List.drop_left]

theorem countNl_takeWhile_spTab (l : List Char) :
    countNl (l.takeWhile isSpTab) = 0 := by
  unfold countNl
  rw [List.count_eq_zero]
  intro hmem
  have := List.mem_takeWhile_imp hmem
  simp [isSpTab] at this

theorem countNl_takeWhile_ne_nl (l : List Char) :
    countNl (l.takeWhile (fun c => c != '\n')) = 0 := by
  unfold countNl
  rw [List.count_eq_zero]
  intro hmem
  have := List.mem_takeWhile_imp hmem
  simp at this

theorem matchCommentLine_sound (l c r : List Char)
    (h : matchCommentLine l = some (c, r)) :
    l = c ++ r ∧ countNl c = 1 := by
  unfold matchCommentLine at h
  by_cases hpre : startsWithL (toL "--") (l.dropWhile isSpTab) = true
  · rw [if_pos hpre] at h
    cases hdw : (List.drop 2 (l.dropWhile isSpTab)).dropWhile
        (fun c => c != '\n') with
    | nil =>
      rw [hdw] at h
      exact absurd h (by simp)
    | cons x rest2 =>
      rw [hdw] at h
      have hx : x = '\n' := by
        have := dropWhile_head_false (fun c => c != '\n')
          (List.drop 2 (l.dropWhile isSpTab)) x rest2 hdw
        simpa using this
      simp only [Option.some.injEq, Prod.mk.injEq] at h
      obtain ⟨hc, hr⟩ := h
      subst hc
      subst hr
      constructor
      · have h1 : l = l.takeWhile isSpTab ++ l.dropWhile isSpTab :=
          (List.takeWhile_append_dropWhile ..).symm
        have h2 := eq_append_drop_of_startsWith (toL "--")
          (l.dropWhile isSpTab) hpre
        rw [show (toL "--").length = 2 from rfl] at h2
        have h3 : List.drop 2 (l.dropWhile isSpTab) =
            (List.drop 2 (l.dropWhile isSpTab)).takeWhile
              (fun c => c != '\n') ++
            (List.drop 2 (l.dropWhile isSpTab)).dropWhile
              (fun c => c != '\n') :=
          (List.takeWhile_append_dropWhile ..).symm
        rw [hdw, hx] at h3
        conv_lhs => rw [h1, h2, h3]
        simp [List.append_assoc]
      · have e1 := countNl_takeWhile_spTab l
        have e2 := countNl_takeWhile_ne_nl (List.drop 2 (l.dropWhile isSpTab))
        unfold countNl at e1 e2 ⊢
        simp only [List.count_append, e1, e2]
        decide
  · rw [if_neg hpre] at h
    exact absurd h (by simp)

theorem matchCommentLinesGo_sound (fuel : Nat) (l : List Char) :
    l = (matchCommentLinesGo fuel l).1 ++ (matchCommentLinesGo fuel l).2 := by
  induction fuel generalizing l with
  | zero => simp [matchCommentLinesGo]
  | succ f ih =>
    unfold matchCommentLinesGo
    cases hc : matchCommentLine l with
    | none => simp
    | some cr =>
      obtain ⟨c, r⟩ := cr
      have h1 := (matchCommentLine_sound l c r hc).1
      simp only []
      rw [List.append_assoc, ← ih r, h1]

theorem matchBlankLine_sound (l c r : List Char)
    (h : matchBlankLine l = some (c, r)) : l = c ++ r := by
  unfold matchBlankLine at h
  by_cases hx : (l.dropWhile isSpTab).head? = some '\n'
  · rw [if_pos hx] at h
    simp only [Option.some.injEq, Prod.mk.injEq] at h
    obtain ⟨hc, hr⟩ := h
    subst hc
    subst hr
    have h1 : l = l.takeWhile isSpTab ++ l.dropWhile isSpTab :=
      (List.takeWhile_append_dropWhile ..).symm
    cases hdw : l.dropWhile isSpTab with
    | nil => rw [hdw] at hx; simp at hx
    | cons x rest =>
      rw [hdw] at hx
      simp only [List.head?_cons, Option.some.injEq] at hx
      rw [hdw, hx] at h1
      conv_lhs => rw [h1]
      simp
  · rw [if_neg hx] at h
    exact absurd h (by simp)

theorem matchBlanksGo_sound (fuel : Nat) (l : List Char) :
    l = (matchBlanksGo fuel l).1 ++ (matchBlanksGo fuel l).2 := by
  induction fuel generalizing l with
  | zero => simp [matchBlanksGo]
  | succ f ih =>
    unfold matchBlanksGo
    cases hc : matchBlankLine l with
    | none => simp
    | some cr =>
      obtain ⟨c, r⟩ := cr
      have h1 := matchBlankLine_sound l c r hc
      simp only []
      rw [List.append_assoc, ← ih r, h1]

theorem matchLocal_sound (r4 : List Char) :
    r4 = (matchLocal r4).1 ++ (matchLocal r4).2 := by
  unfold matchLocal
  by_cases hpre : startsWithL (toL "local") r4 = true
  · rw [if_pos hpre]
    by_cases hw : ((List.drop 5 r4).takeWhile pyWs).isEmpty = true
    · rw [if_pos hw]
      simp
    · rw [if_neg hw]
      simp only []
      have h2 := eq_append_drop_of_startsWith (toL "local") r4 hpre
      rw [show (toL "local").length = 5 from rfl] at h2
      conv_lhs => rw [h2]
      rw [List.append_assoc]
      congr 1
      exact (List.takeWhile_append_dropWhile ..).symm
  · rw [if_neg hpre]
    simp

theorem stageDoc_sound (l d r : List Char)
    (h : stageDoc l = some (d, r)) : l = d ++ r ∧ 1 ≤ countNl d := by
  unfold stageDoc at h
  cases hc : matchCommentLine l with
  | none =>
    rw [hc] at h
    exact absurd h (by simp)
  | some cr =>
    obtain ⟨c1, r1⟩ := cr
    rw [hc] at h
    simp only [Option.some.injEq, Prod.mk.injEq] at h
    obtain ⟨hd, hr⟩ := h
    subst hd
    subst hr
    obtain ⟨h1, h2⟩ := matchCommentLine_sound l c1 r1 hc
    constructor
    · rw [List.append_assoc, ← matchCommentLinesGo_sound r1.length r1]
      exact h1
    · unfold countNl at h2 ⊢
      rw [List.count_append, h2]
      omega

theorem matchFuncAt_sound (l : List Char) (m : FMatch)
    (h : matchFuncAt l = some m) :
    (∃ rest, l = m.doc ++ (m.blank ++ (m.indent ++ (m.localTxt ++ rest)))) ∧
    1 ≤ countNl m.doc ∧ countNl m.indent = 0 := by
  unfold matchFuncAt at h
  cases hsd : stageDoc l with
  | none =>
    rw [hsd] at h
    exact absurd h (by simp)
  | some dr =>
    obtain ⟨doc, r2⟩ := dr
    rw [hsd] at h
    simp only [] at h
    cases hft : matchFuncTail ((matchLocal
        (((matchBlanksGo r2.length r2).2).dropWhile isSpTab)).2) with
    | none =>
      rw [hft] at h
      exact absurd h (by simp)
    | some quad =>
      obtain ⟨ws1, nm, ws2, ps⟩ := quad
      rw [hft] at h
      simp only [Option.some.injEq] at h
      subst h
      obtain ⟨hld, hnd⟩ := stageDoc_sound l doc r2 hsd
      refine ⟨⟨(matchLocal (((matchBlanksGo r2.length r2).2).dropWhile
        isSpTab)).2, ?_⟩, hnd, countNl_takeWhile_spTab _⟩
      show l = doc ++ _
      rw [hld]
      congr 1
      have hb := matchBlanksGo_sound r2.length r2
      conv_lhs => rw [hb]
      congr 1
      have hi : (matchBlanksGo r2.length r2).2 =
          ((matchBlanksGo r2.length r2).2).takeWhile isSpTab ++
          ((matchBlanksGo r2.length r2).2).dropWhile isSpTab :=
        (List.takeWhile_append_dropWhile ..).symm
      conv_lhs => rw [hi]
      congr 1
      exact matchLocal_sound _

theorem findFuncGo_mem (fuel : Nat) (l : List Char) (pos q : Nat)
    (m : FMatch) (h : (q, m) ∈ findFuncGo fuel l pos) :
    ∃ d, q = pos + d ∧ matchFuncAt (List.drop d l) = some m := by
  induction fuel generalizing l pos with
  | zero => simp [findFuncGo] at h
  | succ f ih =>
    cases l with
    | nil => simp [findFuncGo] at h
    | cons c r =>
      unfold findFuncGo at h
      cases hm : matchFuncAt (c :: r) with
      | some m0 =>
        rw [hm] at h
        rcases List.mem_cons.mp h with h1 | h1
        · injection h1 with hq hmm2
          refine ⟨0, by omega, ?_⟩
          rw [List.drop_zero, hm, hmm2]
        · obtain ⟨d', hd1, hd2⟩ := ih _ _ h1
          refine ⟨consumedLen m0 + d', by omega, ?_⟩
          rw [← hd2, List.drop_drop]
      | none =>
        rw [hm] at h
        obtain ⟨d', hd1, hd2⟩ := ih _ _ h
        exact ⟨d' + 1, by omega, by rw [← hd2, List.drop_succ_cons]⟩

theorem mem_findFuncMatches (content : List Char) (q : Nat) (m : FMatch)
    (h : (q, m) ∈ findFuncMatches content) :
    matchFuncAt (List.drop q content) = some m := by
  obtain ⟨d, hd1, hd2⟩ := findFuncGo_mem content.length content 0 q m h
  rw [show q = d from by omega]
  exact hd2

theorem processMatch_some (isLocal : Bool) (name doc : List Char)
    (ln : Nat) (fi : FuncInfo)
    (h : processMatch isLocal name doc ln = some fi) :
    fi = mkFuncInfo name doc ln := by
  unfold processMatch at h
  by_cases hex : funcExcluded isLocal name = true
  · rw [if_pos hex] at h
    exact absurd h (by simp)
  · rw [if_neg hex] at h
    by_cases hr : retainCond (mkFuncInfo name doc ln) = true
    · rw [if_pos hr] at h
      injection h with h2
      exact h2.symm
    · rw [if_neg hr] at h
      exact absurd h (by simp)

/-- C7 (amended): for every retained function, `line` equals one plus the
number of newlines that precede the match's character offset — which is
the offset of the first line of the attached comment block, not of the
definition itself: the 1-based line of the `function`/`local` keyword
exceeds the recorded `line` by the number of newlines in the comment
block, the blank lines and the `local` group, and is therefore always
strictly greater (the comment block contains at least one newline). -/
theorem C7_line_number_amended (content : List Char) (fi : FuncInfo)
    (hmem : fi ∈ parseFunctions content) :
    ∃ q m, matchFuncAt (List.drop q content) = some m ∧
      fi.line = countNl (List.take q content) + 1 ∧
      countNl (List.take (q + preLen m) content) + 1 =
        fi.line + (countNl m.doc + countNl m.blank + countNl m.localTxt) ∧
      fi.line < countNl (List.take (q + preLen m) content) + 1 := by
  unfold parseFunctions at hmem
  rw [List.mem_filterMap] at hmem
  obtain ⟨qm, hqm, hpm⟩ := hmem
  obtain ⟨q, m⟩ := qm
  have hmatch : matchFuncAt (List.drop q content) = some m :=
    mem_findFuncMatches content q m hqm
  have hfi := processMatch_some _ _ _ _ _ hpm
  have hline : fi.line = countNl (List.take q content) + 1 := by
    rw [hfi]
    rfl
  obtain ⟨⟨rest, hdec⟩, hnl, hind⟩ := matchFuncAt_sound _ m hmatch
  have hlen4 : (m.doc ++ (m.blank ++ (m.indent ++ m.localTxt))).length =
      preLen m := by
    simp [preLen]
    omega
  have htake : List.take (q + preLen m) content =
      List.take q content ++
        (m.doc ++ (m.blank ++ (m.indent ++ m.localTxt))) := by
    rw [List.take_add]
    congr 1
    rw [hdec]
    have hassoc : m.doc ++ (m.blank ++ (m.indent ++ (m.localTxt ++ rest))) =
        (m.doc ++ (m.blank ++ (m.indent ++ m.localTxt))) ++ rest := by
      simp [List.append_assoc]
    rw [hassoc, ← hlen4, List.take_left]
  have hcount : countNl (List.take (q + preLen m) content) =
      countNl (List.take q content) + (countNl m.doc +
        (countNl m.blank + (countNl m.indent + countNl m.localTxt))) := by
    rw [htake]
    unfold countNl
    simp [List.count_append]
  exact ⟨q, m, hmatch, hline, by omega, by omega⟩

/-- C7 (witness): the amended theorem applied to the counterexample
content. -/
theorem C7_line_number_amended_witness :
    ∃ q m, matchFuncAt (List.drop q c7content) = some m ∧
      (mkFuncInfo (toL "obj.m") (toL "---adds\n") 1).line =
        countNl (List.take q c7content) + 1 ∧
      countNl (List.take (q + preLen m) c7content) + 1 =
        (mkFuncInfo (toL "obj.m") (toL "---adds\n") 1).line +
          (countNl m.doc + countNl m.blank + countNl m.localTxt) ∧
      (mkFuncInfo (toL "obj.m") (toL "---adds\n") 1).line <
        countNl (List.take (q + preLen m) c7content) + 1 := by
  exact C7_line_number_amended c7content
    (mkFuncInfo (toL "obj.m") (toL "---adds\n") 1) (by decide)

/-- C7 (counterexample): in `c7content` the single retained function's
`line` field is `1` — the line of the comment block — while the
`function` keyword (the definition site) is on line `2`. -/
theorem C7_counterexample :
    (parseFunctions c7content).map (fun fi => fi.line) = [1] ∧
    funcKwLines c7content = [2] := by
  refine ⟨by decide, by decide⟩

/-! ## C9 -/

theorem not_tacLib_of_lib (p : List Char)
    (h : startsWithL (toL "lib/") p = true) :
    startsWithL (toL "tac/lib/") p = false := by
  rw [startsWithL, List.isPrefixOf_iff_prefix] at h
  obtain ⟨t, ht⟩ := h
  rw [← ht]
  rfl

/-- C9 (amended): a discovered file is excluded exactly when its relative
path contains `data/`, `test/` or `.git` as a substring (anywhere, not
only as whole directory names), or starts with `lib/` (the `tac/lib/`
exception in the code is vacuous, since a path starting with `lib/`
never starts with `tac/lib/`). -/
theorem C9_filter_amended (p : List Char) :
    shouldSkip p =
      (containsSub (toL "data/") p || containsSub (toL "test/") p ||
        containsSub (toL ".git") p || startsWithL (toL "lib/") p) := by
  unfold shouldSkip
  cases hL : startsWithL (toL "lib/") p with
  | false => simp [hL]
  | true => simp [hL, not_tacLib_of_lib p hL]

/-- C9 (counterexample): `mydata/foo.lua` has no directory literally named
`data`, `test` or `.git` and is not under `lib/`, yet the code excludes
it because `data/` occurs as a substring of the path. -/
theorem C9_counterexample :
    shouldSkip (toL "mydata/foo.lua") = true ∧
    claimSkip (toL "mydata/foo.lua") = false := by
  refine ⟨by decide, by decide⟩

/-! ## C10 -/

theorem ext_not_core (r : List Char) :
    startsWithL (toL "tac/core/") (toL "tac/extensions/" ++ r) = false := rfl

theorem ext_not_lib (r : List Char) :
    startsWithL (toL "tac/lib/") (toL "tac/extensions/" ++ r) = false := rfl

theorem ext_not_commands (r : List Char) :
    startsWithL (toL "tac/commands/") (toL "tac/extensions/" ++ r) =
      false := rfl

theorem mem_insortBy {α : Type} (le : α → α → Bool) (x y : α) (l : List α) :
    y ∈ insortBy le x l ↔ y = x ∨ y ∈ l := by
  induction l with
  | nil => simp [insortBy]
  | cons z rest ih =>
    unfold insortBy
    by_cases hc : le x z = true
    · simp [hc]
    · simp only [hc, if_false, Bool.false_eq_true, List.mem_cons, ih]
      tauto

theorem mem_sortBy {α : Type} (le : α → α → Bool) (y : α) (l : List α) :
    y ∈ sortBy le l ↔ y ∈ l := by
  induction l with
  | nil => simp [sortBy]
  | cons x rest ih => simp [sortBy, mem_insortBy, ih]

theorem dictSet_mem (k : List Char) (v : Module)
    (d : List (List Char × Module)) (kv : List Char × Module)
    (h : kv ∈ dictSet k v d) : kv ∈ d ∨ kv = (k, v) := by
  induction d with
  | nil => simp [dictSet] at h; simp [h]
  | cons a rest ih =>
    obtain ⟨ka, va⟩ := a
    unfold dictSet at h
    by_cases hk : (ka == k) = true
    · rw [if_pos hk] at h
      rcases List.mem_cons.mp h with h1 | h1
      · right
        rw [h1]
        simp [show ka = k from by simpa using hk]
      · left
        exact List.mem_cons_of_mem _ h1
    · rw [if_neg hk] at h
      rcases List.mem_cons.mp h with h1 | h1
      · left
        rw [h1]
        exact List.mem_cons_self _ _
      · rcases ih h1 with h2 | h2
        · exact Or.inl (List.mem_cons_of_mem _ h2)
        · exact Or.inr h2

theorem dictEnsure_mem (k : List Char) (d : List (List Char × List Module))
    (kv : List Char × List Module) (h : kv ∈ dictEnsure k d) :
    kv ∈ d ∨ kv = (k, []) := by
  unfold dictEnsure at h
  by_cases hk : dictHasKey k d = true
  · rw [if_pos hk] at h
    exact Or.inl h
  · rw [if_neg hk] at h
    rcases List.mem_append.mp h with h1 | h1
    · exact Or.inl h1
    · simp at h1
      simp [h1]

theorem dictAppend_mem_val (k : List Char) (v : Module)
    (d : List (List Char × List Module)) (k2 : List Char)
    (l2 : List Module) (x : Module) (h : (k2, l2) ∈ dictAppend k v d)
    (hx : x ∈ l2) :
    (∃ l0, (k2, l0) ∈ d ∧ x ∈ l0) ∨ (x = v ∧ k2 = k) := by
  induction d with
  | nil =>
    simp [dictAppend] at h
    obtain ⟨hk2, hl2⟩ := h
    rw [hl2] at hx
    simp at hx
    exact Or.inr ⟨hx, hk2⟩
  | cons a rest ih =>
    obtain ⟨ka, la⟩ := a
    unfold dictAppend at h
    by_cases hk : (ka == k) = true
    · rw [if_pos hk] at h
      rcases List.mem_cons.mp h with h1 | h1
      · injection h1 with h2 h3
        subst h2
        rw [h3] at hx
        rcases List.mem_append.mp hx with h4 | h4
        · exact Or.inl ⟨la, List.mem_cons_self _ _, h4⟩
        · simp at h4
          exact Or.inr ⟨h4, by simpa using hk⟩
      · exact Or.inl ⟨l2, List.mem_cons_of_mem _ h1, hx⟩
    · rw [if_neg hk] at h
      rcases List.mem_cons.mp h with h1 | h1
      · injection h1 with h2 h3
        subst h2
        rw [h3] at hx
        exact Or.inl ⟨la, List.mem_cons_self _ _, hx⟩
      · rcases ih h1 with ⟨l0, h2, h3⟩ | h2
        · exact Or.inl ⟨l0, List.mem_cons_of_mem _ h2, h3⟩
        · exact Or.inr h2

theorem dictAppend_self (k : List Char) (v : Module)
    (d : List (List Char × List Module)) :
    ∃ l, (k, l) ∈ dictAppend k v d ∧ v ∈ l := by
  induction d with
  | nil => exact ⟨[v], by simp [dictAppend], by simp⟩
  | cons a rest ih =>
    obtain ⟨ka, la⟩ := a
    unfold dictAppend
    by_cases hk : (ka == k) = true
    · rw [if_pos hk]
      have : ka = k := by simpa using hk
      subst this
      exact ⟨la ++ [v], List.mem_cons_self _ _, by simp⟩
    · rw [if_neg hk]
      obtain ⟨l, h1, h2⟩ := ih
      exact ⟨l, List.mem_cons_of_mem _ h1, h2⟩

theorem dictAppend_pres (k2 : List Char) (v : Module)
    (d : List (List Char × List Module)) (k : List Char) (c : Module)
    (h : ∃ l, (k, l) ∈ d ∧ c ∈ l) :
    ∃ l', (k, l') ∈ dictAppend k2 v d ∧ c ∈ l' := by
  induction d with
  | nil => simp at h
  | cons a rest ih =>
    obtain ⟨ka, la⟩ := a
    obtain ⟨l, hmem, hcl⟩ := h
    unfold dictAppend
    by_cases hk : (ka == k2) = true
    · rw [if_pos hk]
      rcases List.mem_cons.mp hmem with h1 | h1
      · injection h1 with h2 h3
        subst h2
        subst h3
        exact ⟨l ++ [v], List.mem_cons_self _ _, List.mem_append_left _ hcl⟩
      · exact ⟨l, List.mem_cons_of_mem _ h1, hcl⟩
    · rw [if_neg hk]
      rcases List.mem_cons.mp hmem with h1 | h1
      · injection h1 with ha hb
        subst ha
        subst hb
        exact ⟨l, List.mem_cons_self _ _, hcl⟩
      · obtain ⟨l', h2, h3⟩ := ih ⟨l, h1, hcl⟩
        exact ⟨l', List.mem_cons_of_mem _ h2, h3⟩

theorem dictEnsure_pres (k2 : List Char)
    (d : List (List Char × List Module)) (k : List Char) (c : Module)
    (h : ∃ l, (k, l) ∈ d ∧ c ∈ l) :
    ∃ l', (k, l') ∈ dictEnsure k2 d ∧ c ∈ l' := by
  obtain ⟨l, hmem, hcl⟩ := h
  unfold dictEnsure
  by_cases hk : dictHasKey k2 d = true
  · rw [if_pos hk]
    exact ⟨l, hmem, hcl⟩
  · rw [if_neg hk]
    exact ⟨l, List.mem_append_left _ hmem, hcl⟩

theorem dictGetD_mem (k : List Char) (d : List (List Char × List Module))
    (x : Module) (h : x ∈ dictGetD k d) : ∃ l, (k, l) ∈ d ∧ x ∈ l := by
  induction d with
  | nil => simp [dictGetD] at h
  | cons a rest ih =>
    obtain ⟨ka, la⟩ := a
    unfold dictGetD at h
    by_cases hk : (ka == k) = true
    · rw [if_pos hk] at h
      have : ka = k := by simpa using hk
      subst this
      exact ⟨la, List.mem_cons_self _ _, h⟩
    · rw [if_neg hk] at h
      obtain ⟨l, h1, h2⟩ := ih h
      exact ⟨l, List.mem_cons_of_mem _ h1, h2⟩

theorem mem_childConcat (d : List (List Char × List Module))
    (k : List Char) (l0 : List Module) (c : Module)
    (hkv : (k, l0) ∈ d) (hcl : c ∈ l0) :
    c ∈ d.foldr (fun kv acc => kv.2 ++ acc) [] := by
  induction d with
  | nil => simp at hkv
  | cons a rest ih =>
    rcases List.mem_cons.mp hkv with h1 | h1
    · rw [← h1]
      exact List.mem_append_left _ hcl
    · exact List.mem_append_right _ (ih h1)

theorem buildExt_parents_spec (ms : List Module) (l : List Module)
    (st : List (List Char × Module) × List (List Char × List Module))
    (hl : ∀ m' ∈ l, m' ∈ ms)
    (hst : ∀ kv ∈ st.1, ParentSpec ms kv) :
    ∀ kv ∈ (l.foldl buildExtStep st).1, ParentSpec ms kv := by
  induction l generalizing st with
  | nil => exact fun kv hkv => hst kv hkv
  | cons m' rest ih =>
    rw [List.foldl_cons]
    refine ih _ (fun x hx => hl x (List.mem_cons_of_mem _ hx)) ?_
    intro kv hkv
    unfold buildExtStep at hkv
    by_cases hpre : startsWithL (toL "tac/extensions/") m'.path = true
    · rw [if_pos hpre] at hkv
      cases hsp : splitCh '/' (List.drop 15 m'.path) with
      | nil =>
        rw [hsp] at hkv
        exact hst kv hkv
      | cons p0 tl =>
        cases tl with
        | nil =>
          rw [hsp] at hkv
          rcases dictSet_mem _ _ _ _ hkv with h1 | h1
          · exact hst kv h1
          · rw [h1]
            exact ⟨p0, hl m' (List.mem_cons_self _ _), hpre, hsp, rfl⟩
        | cons p1 tl2 =>
          cases tl2 with
          | nil =>
            rw [hsp] at hkv
            exact hst kv hkv
          | cons p2 tl3 =>
            rw [hsp] at hkv
            exact hst kv hkv
    · rw [if_neg hpre] at hkv
      exact hst kv hkv

theorem buildExt_children_spec (l : List Module)
    (st : List (List Char × Module) × List (List Char × List Module))
    (hst : ∀ kv ∈ st.2, ChildSpec kv) :
    ∀ kv ∈ (l.foldl buildExtStep st).2, ChildSpec kv := by
  induction l generalizing st with
  | nil => exact fun kv hkv => hst kv hkv
  | cons m' rest ih =>
    rw [List.foldl_cons]
    refine ih _ ?_
    intro kv hkv
    unfold buildExtStep at hkv
    by_cases hpre : startsWithL (toL "tac/extensions/") m'.path = true
    · rw [if_pos hpre] at hkv
      cases hsp : splitCh '/' (List.drop 15 m'.path) with
      | nil =>
        rw [hsp] at hkv
        exact hst kv hkv
      | cons p0 tl =>
        cases tl with
        | nil =>
          rw [hsp] at hkv
          rcases dictEnsure_mem _ _ _ hkv with h1 | h1
          · exact hst kv h1
          · rw [h1]
            intro v hv
            simp at hv
        | cons p1 tl2 =>
          cases tl2 with
          | nil =>
            rw [hsp] at hkv
            obtain ⟨k2, l2⟩ := kv
            intro v hv
            rcases dictAppend_mem_val _ _ _ _ _ _ hkv hv with
              ⟨l0, h1, h2⟩ | ⟨h1, h2⟩
            · exact hst (k2, l0) h1 v h2
            · subst h1
              exact ⟨p0, p1, hpre, hsp, h2⟩
          | cons p2 tl3 =>
            rw [hsp] at hkv
            exact hst kv hkv
    · rw [if_neg hpre] at hkv
      exact hst kv hkv

theorem buildExtStep_pres_child (st : List (List Char × Module) ×
    List (List Char × List Module)) (m' : Module) (k : List Char)
    (c : Module) (h : ∃ l0, (k, l0) ∈ st.2 ∧ c ∈ l0) :
    ∃ l0, (k, l0) ∈ (buildExtStep st m').2 ∧ c ∈ l0 := by
  unfold buildExtStep
  by_cases hpre : startsWithL (toL "tac/extensions/") m'.path = true
  · rw [if_pos hpre]
    cases hsp : splitCh '/' (List.drop 15 m'.path) with
    | nil => exact h
    | cons p0 tl =>
      cases tl with
      | nil => exact dictEnsure_pres _ _ _ _ h
      | cons p1 tl2 =>
        cases tl2 with
        | nil => exact dictAppend_pres _ _ _ _ _ h
        | cons p2 tl3 => exact h
  · rw [if_neg hpre]
    exact h

theorem buildExt_child_in (l : List Module)
    (st : List (List Char × Module) × List (List Char × List Module))
    (c : Module) (X Y : List Char)
    (hpre : startsWithL (toL "tac/extensions/") c.path = true)
    (hsp : splitCh '/' (List.drop 15 c.path) = [X, Y])
    (h : (∃ l0, (toL "tac.extensions." ++ X, l0) ∈ st.2 ∧ c ∈ l0) ∨
      c ∈ l) :
    ∃ l0, (toL "tac.extensions." ++ X, l0) ∈ (l.foldl buildExtStep st).2 ∧
      c ∈ l0 := by
  induction l generalizing st with
  | nil =>
    rcases h with h1 | h1
    · simpa using h1
    · simp at h1
  | cons m' rest ih =>
    rw [List.foldl_cons]
    rcases h with h1 | h1
    · exact ih _ (Or.inl (buildExtStep_pres_child st m' _ c h1))
    · rcases List.mem_cons.mp h1 with h2 | h2
      · subst h2
        apply ih _ (Or.inl ?_)
        unfold buildExtStep
        rw [if_pos hpre, hsp]
        exact dictAppend_self _ _ _
      · exact ih _ (Or.inr h2)

theorem mem_parentFold (le2 : Module → Module → Bool)
    (ch : List (List Char × List Module))
    (sp : List (List Char × Module)) (c : Module)
    (h : c ∈ sp.foldr (fun kv acc =>
      kv.2 :: (sortBy le2 (dictGetD kv.1 ch) ++ acc)) []) :
    ∃ kv ∈ sp, c = kv.2 ∨ c ∈ dictGetD kv.1 ch := by
  induction sp with
  | nil => simp at h
  | cons kv rest ih =>
    rw [List.foldr_cons] at h
    rcases List.mem_cons.mp h with h1 | h1
    · exact ⟨kv, List.mem_cons_self _ _, Or.inl h1⟩
    · rcases List.mem_append.mp h1 with h2 | h2
      · exact ⟨kv, List.mem_cons_self _ _,
          Or.inr ((mem_sortBy le2 c _).mp h2)⟩
      · obtain ⟨kv2, h3, h4⟩ := ih h2
        exact ⟨kv2, List.mem_cons_of_mem _ h3, h4⟩

/-- C10 (amended): a module whose path lies exactly two segments below
`tac/extensions/` appears nowhere in the index — neither in any category
list nor as an extension child nor in the Other catch-all — provided no
module of the list produces its parent key, i.e. no module has a
single-segment extensions path whose file name with every `.lua` removed
equals the child's first segment.  (The unamended claim, which only
requires that no module have the exact path `tac/extensions/X.lua`,
fails: a file such as `tac/extensions/X.lua.lua` also produces the
parent key `tac.extensions.X`.) -/
theorem C10_orphan_invisible_amended (modules : List Module) (c : Module)
    (X Y : List Char)
    (hc : c ∈ modules)
    (hpre : startsWithL (toL "tac/extensions/") c.path = true)
    (hsp : splitCh '/' (List.drop 15 c.path) = [X, Y])
    (hnop : ∀ m' ∈ modules, ∀ p0,
      startsWithL (toL "tac/extensions/") m'.path = true →
      splitCh '/' (List.drop 15 m'.path) = [p0] →
      extKeyOf p0 ≠ toL "tac.extensions." ++ X) :
    c ∉ indexEntries modules := by
  intro hmem
  have hdecomp : c.path = toL "tac/extensions/" ++ List.drop 15 c.path := by
    have h0 := eq_append_drop_of_startsWith (toL "tac/extensions/")
      c.path hpre
    rwa [show (toL "tac/extensions/").length = 15 from rfl] at h0
  unfold indexEntries at hmem
  rcases List.mem_append.mp hmem with h1 | hpar
  rotate_left
  · -- parents and children section
    obtain ⟨kv, hkvsp, hcase⟩ := mem_parentFold _ _ _ _ hpar
    have hkvp : kv ∈ (buildExt modules).1 := by
      have h9 : kv ∈ sortBy (fun a b => lexLe a.1 b.1) (buildExt modules).1 :=
        by simpa [sortedParents] using hkvsp
      exact (mem_sortBy _ kv _).mp h9
    obtain ⟨p0, hvmem, hvpre, hvsp, hkey⟩ :=
      buildExt_parents_spec modules modules ([], []) (fun x hx => hx)
        (by simp) kv hkvp
    rcases hcase with hcp | hcc
    · rw [hcp] at hsp
      rw [hvsp] at hsp
      simp at hsp
    · obtain ⟨l0, hentry, hcl⟩ := dictGetD_mem _ _ _ hcc
      obtain ⟨p0c, p1c, _, hspc, hk1⟩ :=
        buildExt_children_spec modules ([], []) (by simp) _ hentry c hcl
      rw [hsp] at hspc
      have hp0c : p0c = X := by
        injection hspc.symm with ha _
      rw [hp0c] at hk1
      exact hnop kv.2 hvmem p0 hvpre hvsp (hkey ▸ hk1)
  rcases List.mem_append.mp h1 with h2 | hoth
  rotate_left
  · -- Other Modules
    have hp := (List.mem_filter.mp hoth).2
    have hcat : c ∈ categorizedOf modules := by
      obtain ⟨l0, hentry, hcl⟩ := buildExt_child_in modules ([], []) c X Y
        hpre hsp (Or.inr hc)
      unfold categorizedOf
      exact List.mem_append_right _ (mem_childConcat _ _ _ _ hentry hcl)
    simp [hcat] at hp
  rcases List.mem_append.mp h2 with h3 | hcmd
  rotate_left
  · -- Command Modules
    have hp := (List.mem_filter.mp hcmd).2
    rw [hdecomp, ext_not_commands] at hp
    exact absurd hp (by simp)
  rcases List.mem_append.mp h3 with hcore | hlib
  · -- Core Modules
    have hp := (List.mem_filter.mp hcore).2
    rw [hdecomp] at hp
    rw [show startsWithL (toL "tac/core/")
        (toL "tac/extensions/" ++ List.drop 15 c.path) = false from rfl]
      at hp
    simp at hp
  · -- Library Modules
    have hp := (List.mem_filter.mp hlib).2
    rw [hdecomp, ext_not_lib] at hp
    exact absurd hp (by simp)

/-- C10 (witness): the amended theorem applied to a list holding only
the orphan child. -/
theorem C10_orphan_invisible_amended_witness :
    c10child ∉ indexEntries [c10child] := by
  refine C10_orphan_invisible_amended [c10child] c10child (toL "sub")
    (toL "child.lua") (by simp) (by decide) (by decide) ?_
  intro m' hm' p0 hpre' hsp'
  rw [List.mem_singleton] at hm'
  subst hm'
  rw [show splitCh '/' (List.drop 15 c10child.path) =
    [toL "sub", toL "child.lua"] from by decide] at hsp'
  simp at hsp'

/-- C10 (counterexample): with the orphan child and a module at
`tac/extensions/sub.lua.lua` in the list, no module has path
`tac/extensions/sub.lua`, yet the child is rendered in the index (as a
child of the aliased parent), contradicting the claim. -/
theorem C10_counterexample :
    c10child ∈ indexEntries [c10child, c10alias] ∧
    (∀ m' ∈ [c10child, c10alias],
      ¬ m'.path = toL "tac/extensions/sub.lua") ∧
    startsWithL (toL "tac/extensions/") c10child.path = true ∧
    splitCh '/' (List.drop 15 c10child.path) =
      [toL "sub", toL "child.lua"] := by
  refine ⟨by decide, by decide, by decide, by decide⟩

/-! ## C8 -/

theorem catMap_cons {α : Type} (g : α → List Char) (x : α) (t : List α) :
    catMap g (x :: t) = g x ++ catMap g t := rfl

theorem catMap_append {α : Type} (g : α → List Char) (s t : List α) :
    catMap g (s ++ t) = catMap g s ++ catMap g t := by
  induction s with
  | nil => simp [catMap]
  | cons x xs ih =>
    rw [List.cons_append, catMap_cons, catMap_cons, ih, List.append_assoc]

theorem isEmpty_false_of_mem {α : Type} (l : List α) (x : α) (h : x ∈ l) :
    l.isEmpty = false := by
  cases l with
  | nil => simp at h
  | cons a t => rfl

theorem render_desc_escaped (m : Module) :
    ∃ a b, generate_html_module m = a ++ escapeAngle m.descr ++ b := by
  exact ⟨tmplHead1 ++ m.name ++ tmplHead2 ++ m.name ++ versionBadge m ++
    tmplHead3,
    tmplHead4 ++ metadataBlock m ++ ghLink m ++ examplesSection m ++
      functionsSection m ++ tmplFoot,
    by simp [generate_html_module, List.append_assoc]⟩

theorem render_example_escaped (m : Module) (e : List Char)
    (he : e ∈ m.examples) :
    ∃ a b, generate_html_module m = a ++ escapeAngle e ++ b := by
  have hne : m.examples.isEmpty = false := isEmpty_false_of_mem _ _ he
  obtain ⟨s, t, hst⟩ := List.append_of_mem he
  refine ⟨tmplHead1 ++ m.name ++ tmplHead2 ++ m.name ++ versionBadge m ++
    tmplHead3 ++ escapeAngle m.descr ++ tmplHead4 ++ metadataBlock m ++
    ghLink m ++ toL "    <h2>Examples</h2>\n" ++ catMap exampleBlock s ++
    toL "    <pre><code class=\x27language-lua\x27>",
    toL "</code></pre>\n" ++ catMap exampleBlock t ++ functionsSection m ++
      tmplFoot, ?_⟩
  rw [generate_html_module]
  rw [show examplesSection m = toL "    <h2>Examples</h2>\n" ++
      catMap exampleBlock m.examples from by
    simp [examplesSection, hne]]
  rw [hst, catMap_append, catMap_cons, exampleBlock]
  simp [List.append_assoc]

theorem render_funcdesc_raw (m : Module) (f : FuncInfo)
    (hf : f ∈ m.functions) (hd : f.descr ≠ []) :
    ∃ a b, generate_html_module m =
      a ++ (toL "        <p>" ++ f.descr ++ toL "</p>\n") ++ b := by
  have hne : m.functions.isEmpty = false := isEmpty_false_of_mem _ _ hf
  have hdE : f.descr.isEmpty = false := (isEmpty_false_iff _).mpr hd
  obtain ⟨s, t, hst⟩ := List.append_of_mem hf
  refine ⟨tmplHead1 ++ m.name ++ tmplHead2 ++ m.name ++ versionBadge m ++
    tmplHead3 ++ escapeAngle m.descr ++ tmplHead4 ++ metadataBlock m ++
    ghLink m ++ examplesSection m ++ toL "    <h2>Functions</h2>\n" ++
    catMap (funcBlock (githubUrlOf m)) s ++
    (toL "    <div class=\x27function\x27>\n        <h3><code>" ++ f.name ++
      toL "(" ++ joinCommaSpace (f.params.map (fun p => p.name)) ++
      toL ")</code></h3>\n") ++
    (toL "        <a href=\x27" ++ githubUrlOf m ++ toL "#L" ++
      natToL f.line ++
      toL "\x27 target=\x27_blank\x27 style=\x27font-size: 0.85em; opacity: 0.7;\x27>View source</a>\n"),
    (if f.params.isEmpty then []
     else
       toL "        <div class=\x27params\x27>\n            <strong>Parameters:</strong>\n            <ul>\n" ++
       catMap paramLi f.params ++
       toL "            </ul>\n        </div>\n") ++
    ((if f.returns.isEmpty then []
      else
        toL "        <div class=\x27returns\x27><strong>Returns:</strong> " ++
        f.returns ++ toL "</div>\n") ++
    (toL "    </div>\n" ++ (catMap (funcBlock (githubUrlOf m)) t ++
      tmplFoot))), ?_⟩
  rw [generate_html_module]
  rw [show functionsSection m = toL "    <h2>Functions</h2>\n" ++
      catMap (funcBlock (githubUrlOf m)) m.functions from by
    simp [functionsSection, hne]]
  rw [hst, catMap_append, catMap_cons, funcBlock, hdE]
  simp [List.append_assoc]

theorem render_returns_raw (m : Module) (f : FuncInfo)
    (hf : f ∈ m.functions) (hr : f.returns ≠ []) :
    ∃ a b, generate_html_module m =
      a ++ (toL "        <div class=\x27returns\x27><strong>Returns:</strong> "
        ++ f.returns ++ toL "</div>\n") ++ b := by
  have hne : m.functions.isEmpty = false := isEmpty_false_of_mem _ _ hf
  have hrE : f.returns.isEmpty = false := (isEmpty_false_iff _).mpr hr
  obtain ⟨s, t, hst⟩ := List.append_of_mem hf
  refine ⟨tmplHead1 ++ m.name ++ tmplHead2 ++ m.name ++ versionBadge m ++
    tmplHead3 ++ escapeAngle m.descr ++ tmplHead4 ++ metadataBlock m ++
    ghLink m ++ examplesSection m ++ toL "    <h2>Functions</h2>\n" ++
    catMap (funcBlock (githubUrlOf m)) s ++
    (toL "    <div class=\x27function\x27>\n        <h3><code>" ++ f.name ++
      toL "(" ++ joinCommaSpace (f.params.map (fun p => p.name)) ++
      toL ")</code></h3>\n") ++
    (toL "        <a href=\x27" ++ githubUrlOf m ++ toL "#L" ++
      natToL f.line ++
      toL "\x27 target=\x27_blank\x27 style=\x27font-size: 0.85em; opacity: 0.7;\x27>View source</a>\n") ++
    (if f.descr.isEmpty then []
     else toL "        <p>" ++ f.descr ++ toL "</p>\n") ++
    (if f.params.isEmpty then []
     else
       toL "        <div class=\x27params\x27>\n            <strong>Parameters:</strong>\n            <ul>\n" ++
       catMap paramLi f.params ++
       toL "            </ul>\n        </div>\n"),
    toL "    </div>\n" ++ (catMap (funcBlock (githubUrlOf m)) t ++
      tmplFoot), ?_⟩
  rw [generate_html_module]
  rw [show functionsSection m = toL "    <h2>Functions</h2>\n" ++
      catMap (funcBlock (githubUrlOf m)) m.functions from by
    simp [functionsSection, hne]]
  rw [hst, catMap_append, catMap_cons, funcBlock, hrE]
  simp [List.append_assoc]

/-- C8 (amended): the module-page renderer escapes `<`/`>` in the module
description and in every example text, but emits function descriptions
and returns text verbatim (as it does parameter descriptions); it
performs no other HTML escaping. -/
theorem C8_escaping_amended (m : Module) :
    (∃ a b, generate_html_module m = a ++ escapeAngle m.descr ++ b) ∧
    (∀ e ∈ m.examples,
      ∃ a b, generate_html_module m = a ++ escapeAngle e ++ b) ∧
    (∀ f ∈ m.functions, f.descr ≠ [] →
      ∃ a b, generate_html_module m =
        a ++ (toL "        <p>" ++ f.descr ++ toL "</p>\n") ++ b) ∧
    (∀ f ∈ m.functions, f.returns ≠ [] →
      ∃ a b, generate_html_module m =
        a ++ (toL "        <div class=\x27returns\x27><strong>Returns:</strong> "
          ++ f.returns ++ toL "</div>\n") ++ b) :=
  ⟨render_desc_escaped m,
   fun e he => render_example_escaped m e he,
   fun f hf hd => render_funcdesc_raw m f hf hd,
   fun f hf hr => render_returns_raw m f hf hr⟩

/-- C8 (witness): the amended theorem applied to a concrete module with
an example, a documented function and a returns string. -/
theorem C8_escaping_amended_witness :
    (∃ a b, generate_html_module
        { name := toL "w", filename := toL "w", path := toL "w.lua",
          descr := toL "d<e", examples := [toL "ex>1"],
          functions := [⟨toL "a.b", [], toL "r<s", toL "x<y", 1⟩],
          version := none, author := none, license := none } =
      a ++ escapeAngle (toL "d<e") ++ b) ∧
    (∃ a b, generate_html_module
        { name := toL "w", filename := toL "w", path := toL "w.lua",
          descr := toL "d<e", examples := [toL "ex>1"],
          functions := [⟨toL "a.b", [], toL "r<s", toL "x<y", 1⟩],
          version := none, author := none, license := none } =
      a ++ escapeAngle (toL "ex>1") ++ b) ∧
    (∃ a b, generate_html_module
        { name := toL "w", filename := toL "w", path := toL "w.lua",
          descr := toL "d<e", examples := [toL "ex>1"],
          functions := [⟨toL "a.b", [], toL "r<s", toL "x<y", 1⟩],
          version := none, author := none, license := none } =
      a ++ (toL "        <p>" ++ toL "x<y" ++ toL "</p>\n") ++ b) ∧
    (∃ a b, generate_html_module
        { name := toL "w", filename := toL "w", path := toL "w.lua",
          descr := toL "d<e", examples := [toL "ex>1"],
          functions := [⟨toL "a.b", [], toL "r<s", toL "x<y", 1⟩],
          version := none, author := none, license := none } =
      a ++ (toL "        <div class=\x27returns\x27><strong>Returns:</strong> "
        ++ toL "r<s" ++ toL "</div>\n") ++ b) := by
  refine ⟨(C8_escaping_amended _).1, ?_, ?_, ?_⟩
  · exact (C8_escaping_amended _).2.1 (toL "ex>1") (by simp)
  · exact (C8_escaping_amended _).2.2.1 ⟨toL "a.b", [], toL "r<s",
      toL "x<y", 1⟩ (by simp) (by decide)
  · exact (C8_escaping_amended _).2.2.2 ⟨toL "a.b", [], toL "r<s",
      toL "x<y", 1⟩ (by simp) (by decide)

/-- C8 (counterexample): for a module whose single function has the
description `x<y`, the rendered page differs from the claim's
fully-escaping renderer, and it contains the raw, unescaped text
`<p>x<y</p>`. -/
theorem C8_counterexample :
    generate_html_module c8module ≠ generate_html_module_claim c8module ∧
    (∃ a b, generate_html_module c8module =
      a ++ (toL "        <p>" ++ ['x', '<', 'y'] ++ toL "</p>\n") ++ b) := by
  constructor
  · intro h
    have h5 := congrArg List.length h
    have he : escapeAngle ['x', '<', 'y'] = ['x', '&', 'l', 't', ';', 'y'] :=
      by decide
    simp [generate_html_module, generate_html_module_claim, c8module,
      functionsSection, functionsSectionClaim, funcBlock, funcBlockClaim,
      catMap, he, List.length_append] at h5
  · exact render_funcdesc_raw c8module ⟨toL "a.b", [], [], ['x', '<', 'y'], 1⟩
      (by simp [c8module]) (by decide)

end TacDocs
